import Mathlib

/-!
# Verification of the tumopp tumor-growth engine specification

A shallow embedding, in Lean 4, of the core of the `crcxx`/`tumopp`
tumor-growth simulator: the lattice geometries (`coord.hpp`), the cell
record with driver mutations and event-time sampling (`cell.cpp` /
`cell.hpp`), the genealogy walk (`Cell::branch_length`), the spatial
displacement machinery and the growth loop (`tissue.cpp` / `tissue.hpp`).

Modelling conventions:
* `double` values that the program manipulates exactly (rates, times,
  probabilities) are modelled as `ℚ`; IEEE infinity (used by the program
  as "the event never happens") is modelled by `⊤` of `WithTop ℚ`.
* random draws are modelled as explicit inputs: a raw stream of
  `generate_canonical` values is a `List ℚ`, and distribution draws
  (Gaussian effect sizes, unit-Gamma and unit-Exponential variates) are
  passed as rational parameters, since the program only uses the drawn
  value, never the distribution internals.
* lattice positions (`std::valarray<int>` / `std::vector<int>`) are
  `List ℤ`; the occupancy index, which hashes and compares cells by
  coordinate only, is a `Finset (List ℤ)` of occupied sites.
-/

/-! ## Integer lattice vectors -/

/-- Componentwise sum of two lattice vectors (`operator+` on coords). -/
def vadd (a b : List ℤ) : List ℤ := List.zipWith (· + ·) a b

/-- `n`-fold scaling of a displacement, used to describe the ray
`c, c+d, c+2d, …` walked by `Tissue::push`. -/
def vsmul (n : ℕ) (d : List ℤ) : List ℤ := d.map (fun x => (n : ℤ) * x)

/-! ## `std::next_permutation`

The `Neumann` and `Hexagonal` constructors of `coord.hpp` enumerate their
direction vectors with `do { directions_.push_back(v); } while
(std::next_permutation(v.begin(), v.end()));`.  We embed the exact
algorithm: find the longest non-increasing suffix; if it is the whole
sequence the enumeration is over (C++ returns `false`); otherwise swap the
pivot with the rightmost larger element of the suffix and reverse the
suffix. -/

/-- Replace the first element of `l` that is strictly greater than `x`
by `x`, returning that element together with the updated list.  `l` is
the reversed (hence non-decreasing) non-increasing suffix, so the element
found is the rightmost one of the suffix exceeding the pivot, and the
updated list is already the reversed post-swap suffix. -/
def swapFirstGreater (x : ℤ) : List ℤ → ℤ × List ℤ
  | [] => (x, [])
  | d :: ds =>
    if x < d then (d, x :: ds)
    else
      let r := swapFirstGreater x ds
      (r.1, d :: r.2)

/-- Helper for `nextPermutation`: the first argument accumulates the
already-scanned non-increasing suffix in original order (its head is the
element immediately to the right of the scan position), the second is the
rest of the reversed input. -/
def nextPermAux (desc : List ℤ) : List ℤ → Option (List ℤ)
  | [] => none
  | x :: rest =>
    match desc with
    | [] => nextPermAux [x] rest
    | d :: _ =>
      if x < d then
        let r := swapFirstGreater x desc.reverse
        some (rest.reverse ++ r.1 :: r.2)
      else nextPermAux (x :: desc) rest

/-- `std::next_permutation`: `some` of the next lexicographic permutation,
or `none` when the input was the last one (C++ returns `false` and wraps
around; the wrapped value is never pushed by the constructors). -/
def nextPermutation (l : List ℤ) : Option (List ℤ) :=
  nextPermAux [] l.reverse

/-- The `do … while (std::next_permutation(v))` loop: the sequence of
values pushed, starting from `v`.  The fuel bounds the number of
iterations; `24 ≥ 3!` is ample for the 2- and 3-element vectors used by
the constructors. -/
def permutationsFrom : ℕ → List ℤ → List (List ℤ)
  | 0, v => [v]
  | fuel + 1, v =>
    v :: (match nextPermutation v with
          | none => []
          | some w => permutationsFrom fuel w)

/-! ## Direction sets (`coord.hpp`) -/

/-- `Neumann::Neumann(d)`: permutations of `(0,…,0,1)` followed by the
permutations of `(−1,0,…,0)`. -/
def Neumann.directions (d : ℕ) : List (List ℤ) :=
  permutationsFrom 24 (List.replicate (d - 1) 0 ++ [1]) ++
    permutationsFrom 24 ((-1) :: List.replicate (d - 1) 0)

/-- `Moore::Moore(d)`: the nested `{-1,0,1}` loops skipping the origin. -/
def Moore.directions (d : ℕ) : List (List ℤ) :=
  if d = 2 then
    ([-1, 0, 1] : List ℤ).flatMap fun x =>
      ([-1, 0, 1] : List ℤ).flatMap fun y =>
        if x = 0 ∧ y = 0 then [] else [[x, y]]
  else
    ([-1, 0, 1] : List ℤ).flatMap fun x =>
      ([-1, 0, 1] : List ℤ).flatMap fun y =>
        ([-1, 0, 1] : List ℤ).flatMap fun z =>
          if x = 0 ∧ y = 0 ∧ z = 0 then [] else [[x, y, z]]

/-- `Hexagonal::Hexagonal(d)`: in 2D the first two components of the
permutations of `(−1,0,1)`; in 3D those with a zero third component,
followed by the six hard-coded out-of-plane offsets. -/
def Hexagonal.directions (d : ℕ) : List (List ℤ) :=
  if d = 2 then
    (permutationsFrom 24 [-1, 0, 1]).map (fun v => v.take 2)
  else
    (permutationsFrom 24 [-1, 0, 1]).map
      (fun v => [v.headD 0, v.tail.headD 0, 0]) ++
      [[0, 0, -1], [1, 0, -1], [1, -1, -1], [0, 0, 1], [-1, 0, 1], [-1, 1, 1]]

/-! ## Graph and Euclidean distances (`coord.hpp`) -/

/-- `Neumann::graph_distance`: `std::accumulate` with
`abs(lhs) + abs(rhs)` where `lhs` is the accumulator — Manhattan
distance (the accumulator is always nonnegative). -/
def Neumann.graph_distance (v : List ℤ) : ℕ :=
  (v.foldl (fun acc x => |acc| + |x|) 0).toNat

/-- `Moore::graph_distance`: `abs` of `std::max_element` under the
comparison `abs(lhs) < abs(rhs)` (the first maximal element is kept);
on the empty vector `max_element` would be undefined, we return 0. -/
def Moore.graph_distance (v : List ℤ) : ℕ :=
  match v with
  | [] => 0
  | x :: xs => (xs.foldl (fun acc y => if |acc| < |y| then y else acc) x).natAbs

/-- `Hexagonal::graph_distance`: the maximum of the componentwise
absolute values, `|v₀+v₁|`, and (in 3D) `|v₀+v₂|`. -/
def Hexagonal.graph_distance (v : List ℤ) : ℕ :=
  let absv := v.map Int.natAbs ++ [(v.headD 0 + v.tail.headD 0).natAbs]
  let absv :=
    if v.length = 3 then absv ++ [(v.headD 0 + (v.drop 2).headD 0).natAbs]
    else absv
  absv.foldl max 0

/-- The square of `Coord::euclidean_distance` (the base-class member,
which returns `sqrt(Σ xᵢ²)` as a `double`).  `euclidean_distance` is
*not* declared `virtual` in `Coord`, so this is the function every call
through the tissue's `std::unique_ptr<Coord>` handle resolves to,
whatever the dynamic geometry type.  We keep the exact square so that
"`euclidean_distance v` equals the natural number `g`" is the decidable
statement `euclidean_distance_sq v = g²` (both sides nonnegative). -/
def Coord.euclidean_distance_sq (v : List ℤ) : ℤ :=
  (v.map (fun x => x * x)).sum

/-- `Hexagonal::euclidean_distance`, the member as written in the source:
`static_cast<double>(graph_distance(v))`.  Because the base member is not
virtual, this definition is reached only by calls on a static `Hexagonal`
object, never through the `Coord*` handle held by `Tissue`. -/
def Hexagonal.euclidean_distance (v : List ℤ) : ℕ :=
  Hexagonal.graph_distance v

/-- `Coord::neighbors(v)`: each direction translated by `v`, in direction
order. -/
def Coord.neighbors (dirs : List (List ℤ)) (v : List ℤ) : List (List ℤ) :=
  dirs.map (fun d => vadd v d)

/-! ## The cell record (`cell.hpp` / `cell.cpp`) -/

/-- `CellType` of `cell.hpp`. -/
inductive CellType where
  | stem
  | nonstem
deriving DecidableEq

/-- `Event` of `cell.hpp`. -/
inductive Event where
  | birth
  | death
  | migration
deriving DecidableEq

/-- The trait tag written to the driver stream (`"birth"`, `"death"`,
`"migra"`). -/
inductive Trait where
  | birth
  | death
  | migra
deriving DecidableEq

/-- One line of the driver-mutation stream: `id \t trait \t s`. -/
structure DriverEntry where
  id : ℕ
  trait : Trait
  coef : ℚ
deriving DecidableEq

/-- `EventRates`: the copy-on-write record {β, δ, α, ρ}. -/
structure EventRates where
  birth_rate : ℚ
  death_rate : ℚ
  death_prob : ℚ
  migra_rate : ℚ
deriving DecidableEq

/-- The `Cell` record.  The `ancestor_` shared pointer to an immutable
snapshot cell is modelled by `chain`, the list of ids read off by walking
the ancestor pointers upward (the only data `traceback` and
`branch_length` consume).  Field defaults mirror the member initializers
of `cell.hpp`; `rates` and `id` are always set explicitly by the code. -/
structure Cell where
  coord : List ℤ := []
  rates : EventRates := ⟨0, 0, 0, 0⟩
  type_ : CellType := CellType.stem
  proliferation_capacity : ℕ := 10
  next_event : Event := Event.birth
  elapsed : WithTop ℚ := 0
  id : ℕ := 0
  chain : List ℕ := []
  time_of_birth : WithTop ℚ := 0
  time_of_death : WithTop ℚ := 0
deriving DecidableEq

/-- A cell carrying only identity and ancestry, as used by the genealogy
claims (all other fields at their defaults). -/
def genealogyCell (i : ℕ) (ch : List ℕ) : Cell :=
  { id := i, chain := ch }

/-- The `bernoulli` helper of `cell.cpp` (named `bernoulliTrial` here;
`bernoulli` is taken by Mathlib):
`p >= 1.0 || (p > 0.0 && generate_canonical(engine) < p)`, with `u` the
canonical draw (unused unless `0 < p < 1`). -/
def bernoulliTrial (p u : ℚ) : Bool :=
  decide (1 ≤ p) || (decide (0 < p) && decide (u < p))

/-- `bernoulli` consuming from an explicit stream of canonical draws; the
short-circuit consumes nothing when `p ≥ 1` or `p ≤ 0`. -/
def bernoulliDraw (p : ℚ) (rng : List ℚ) : Bool × List ℚ :=
  if 1 ≤ p then (true, rng)
  else if 0 < p then (decide (rng.headD 0 < p), rng.tail)
  else (false, rng)

/-- The non-canonical draws consumed by one `Cell::mutate` call: the three
Bernoulli canonical values and the three Gaussian effect sizes (a
Gaussian draw is used only through its value, so it is an input). -/
structure MutDraws where
  uB : ℚ
  uD : ℚ
  uM : ℚ
  sB : ℚ
  sD : ℚ
  sM : ℚ

/-- `Cell::mutate()`.  Three independent Bernoulli trials with the driver
mutation rates; each hit replaces `event_rates_` by a fresh copy (the
middle component counts those copy-on-write allocations) and logs
`id \t trait \t s` with the raw drawn `s`.  The birth and migra blocks
multiply their rate by `(s += 1.0)`, i.e. `1 + s`; the death block
executes `death_rate *= (s += 1.0); death_prob *= (s += 1.0);` — the
second `s += 1.0` increments again, so `death_prob` is multiplied by
`2 + s` (contrast `force_mutate`, which uses `1 + s` for both). -/
def Cell.mutate (rateB rateD rateM : ℚ) (md : MutDraws) (c : Cell) :
    Cell × ℕ × List DriverEntry :=
  let st : EventRates × ℕ × List DriverEntry := (c.rates, 0, [])
  let st :=
    if bernoulliTrial rateB md.uB then
      ({ st.1 with birth_rate := st.1.birth_rate * (md.sB + 1) },
        st.2.1 + 1, st.2.2 ++ [⟨c.id, Trait.birth, md.sB⟩])
    else st
  let st :=
    if bernoulliTrial rateD md.uD then
      let s1 := md.sD + 1
      let s2 := s1 + 1
      ({ st.1 with death_rate := st.1.death_rate * s1,
                   death_prob := st.1.death_prob * s2 },
        st.2.1 + 1, st.2.2 ++ [⟨c.id, Trait.death, md.sD⟩])
    else st
  let st :=
    if bernoulliTrial rateM md.uM then
      ({ st.1 with migra_rate := st.1.migra_rate * (md.sM + 1) },
        st.2.1 + 1, st.2.2 ++ [⟨c.id, Trait.migra, md.sM⟩])
    else st
  ({ c with rates := st.1 }, st.2.1, st.2.2)

/-- The Gaussian draws of one `Cell::force_mutate` call. -/
structure ForceDraws where
  sB : ℚ
  sD : ℚ
  sM : ℚ

/-- `Cell::force_mutate()`: one copy-on-write, all three traits perturbed
unconditionally, `death_prob` multiplied by the same `1 + s_death` as
`death_rate`. -/
def Cell.force_mutate (fd : ForceDraws) (c : Cell) : Cell × List DriverEntry :=
  ({ c with rates :=
      { birth_rate := c.rates.birth_rate * (1 + fd.sB)
        death_rate := c.rates.death_rate * (1 + fd.sD)
        death_prob := c.rates.death_prob * (1 + fd.sD)
        migra_rate := c.rates.migra_rate * (1 + fd.sM) } },
    [⟨c.id, Trait.birth, fd.sB⟩, ⟨c.id, Trait.death, fd.sD⟩,
      ⟨c.id, Trait.migra, fd.sM⟩])

/-! ## `Cell::delta_time` -/

/-- The gamma scale `theta = max(mu / GAMMA_SHAPE_, 0.0)` with
`mu = 1/birth_rate/positional_value − elapsed`.  With `β·pv = 0` the
division yields IEEE `+inf`, which survives the subtraction and the
clamp (`⊤`); with `elapsed = +inf` (unreachable in runs) IEEE gives
`−inf`, clamped to `0`. -/
def gammaTheta (β pv k : ℚ) (elapsed : WithTop ℚ) : WithTop ℚ :=
  if β * pv = 0 then ⊤
  else if elapsed = ⊤ then (0 : WithTop ℚ)
  else ↑(max ((1 / β / pv - elapsed.untop' 0) / k) 0)

/-- The `if (proliferation_capacity_ > 0)` block of `delta_time`: a
`Gamma(k, θ)` variate, i.e. `θ` times a unit-Gamma draw taken from the
stream (a gamma distribution with infinite scale yields an infinite
sample).  With `ω = 0` nothing is drawn and `t_birth` stays `+inf`. -/
def sampleBirth (ω : ℕ) (β pv k : ℚ) (elapsed : WithTop ℚ) (rng : List ℚ) :
    WithTop ℚ × List ℚ :=
  if 0 < ω then
    (let θ := gammaTheta β pv k elapsed
     (if θ = ⊤ then (⊤ : WithTop ℚ) else ↑(θ.untop' 0 * rng.headD 0), rng.tail))
  else (⊤, rng)

/-- The `if (rate > 0.0)` exponential blocks of `delta_time`: an
`Exponential(rate)` variate, i.e. a unit-Exponential draw divided by the
rate.  With `rate ≤ 0` nothing is drawn and the time stays `+inf`. -/
def sampleExp (rate : ℚ) (rng : List ℚ) : WithTop ℚ × List ℚ :=
  if 0 < rate then (↑(rng.headD 0 / rate), rng.tail) else (⊤, rng)

/-- `Cell::delta_time(positional_value)`: sample the three candidate
times in source order, then select the branch.  Returns the chosen time,
the updated cell (`next_event_`, `elapsed_`), and the remaining draw
stream.  Note the branch tests are strict: `t_birth < t_death &&
t_birth < t_migra`, then `t_death < t_migra`. -/
def Cell.delta_time (k pv : ℚ) (rng : List ℚ) (c : Cell) :
    WithTop ℚ × Cell × List ℚ :=
  let b := sampleBirth c.proliferation_capacity c.rates.birth_rate pv k c.elapsed rng
  let d := sampleExp c.rates.death_rate b.2
  let m := sampleExp c.rates.migra_rate d.2
  if b.1 < d.1 ∧ b.1 < m.1 then
    let bn := bernoulliDraw c.rates.death_prob m.2
    (b.1,
      { c with next_event := if bn.1 then Event.death else Event.birth,
               elapsed := 0 },
      bn.2)
  else if d.1 < m.1 then
    (d.1, { c with next_event := Event.death }, m.2)
  else
    (m.1, { c with next_event := Event.migration,
                   elapsed := c.elapsed + m.1 }, m.2)

/-! ## Genealogy (`Cell::traceback`, `Cell::branch_length`) -/

/-- `Cell::traceback()`: the cell's own id together with every ancestor
id (an `unordered_set` in the source; only membership is used). -/
def Cell.traceback (c : Cell) : List ℕ :=
  c.id :: c.chain

/-- `Cell::has_mutations_of(mutants)`: the 0/1 genotype vector over the
given mutant ids. -/
def Cell.has_mutations_of (c : Cell) (mutants : List ℕ) : List ℕ :=
  mutants.map (fun m => if m ∈ c.traceback then 1 else 0)

/-- The first loop of `branch_length`: walk `other`'s ancestor chain
until an id in `genealogy` is found, counting the `++length` increments;
returns `(increments, mrca)`, with the `mrca = 1u` sentinel when the
chain is exhausted without a hit. -/
def findMRCA (gen : List ℕ) : List ℕ → ℕ × ℕ
  | [] => (0, 1)
  | x :: rest =>
    if x ∈ gen then (0, x)
    else
      let r := findMRCA gen rest
      (r.1 + 1, r.2)

/-- The second loop of `branch_length`:
`for (p = ancestor_; p->id_ > mrca; p = p->ancestor_) ++length;`.
Walking off the end of the chain dereferences a null pointer in the
source (undefined behavior), modelled as `none`. -/
def ancWalk (mrca : ℕ) : List ℕ → Option ℕ
  | [] => none
  | x :: rest =>
    if mrca < x then (ancWalk mrca rest).map (· + 1) else some 0

/-- `Cell::branch_length(other)`: `0` for equal ids, otherwise
`2 + (steps on other's chain before the MRCA) + (steps on own chain
while above the MRCA)`. -/
def Cell.branch_length (c other : Cell) : Option ℕ :=
  if c.id = other.id then some 0
  else
    let f := findMRCA c.traceback other.chain
    (ancWalk f.2 c.chain).map (fun da => 2 + f.1 + da)

/-! ## Segregating sites (`Tissue::write_segsites`) -/

/-- `wtl::transpose` on a rectangular matrix: result dimensions are read
off the first row (the utility requires rectangular input; every use
here is rectangular by construction). -/
def wtlTranspose (m : List (List ℕ)) : List (List ℕ) :=
  match m with
  | [] => []
  | r :: _ => (List.range r.length).map (fun j => m.map (fun row => row.getD j 0))

/-- The site-selection loop of `write_segsites`: keep the rows (sites)
whose derived-allele frequency `daf = Σ row` satisfies
`0 < daf && daf < sample_size`, in order. -/
def selectSegsites (n : ℕ) : List (List ℕ) → List (List ℕ)
  | [] => []
  | r :: rest =>
    if 0 < r.sum ∧ r.sum < n then r :: selectSegsites n rest
    else selectSegsites n rest

/-- `Tissue::write_segsites(ost, samples, mutants)` as the list of lines
written to the stream: the leading blank line and `//`, the
`segsites: s` line, then — when `s > 0` — the `positions:` line of `s`
zeros and one row of concatenated 0/1 digits per sample (the selected
site rows transposed back), or — when `s = 0` — one extra blank line. -/
def write_segsites (samples : List Cell) (mutants : List ℕ) : List String :=
  let flags := samples.map (fun c => c.has_mutations_of mutants)
  let sites := wtlTranspose flags
  let seg := selectSegsites samples.length sites
  let s := seg.length
  let sp := " "
  let zero := "0"
  ["", "//", "segsites: " ++ toString s] ++
    (if 0 < s then
      ("positions: " ++ String.intercalate sp (List.replicate s zero)) ::
        (wtlTranspose seg).map (fun row => String.join (row.map toString))
    else [""])

/-! ## Spatial displacement (`tissue.cpp`)

The occupancy index `extant_cells_` hashes and compares cells by
coordinate, so for the walks below it is a `Finset (List ℤ)` of occupied
sites.  `swap_existing` leaves the set of occupied sites unchanged when
the probed site is occupied (the resident is displaced and carries the
coordinate onward) and inserts the site when it is free; the loops of
`push`/`push_minimum_drag` are therefore walks over a *constant* set
that stop at, and insert, the first free site.  The C++ loops carry no
fuel; the fuel argument makes the recursion structural, and the
termination theorems prove that `|S| + 1` (resp. `|S| + 2`) fuel always
suffices, i.e. that the loops terminate. -/

/-- `Tissue::steps_to_empty(current, direction)`: length of the ray of
occupied sites from `current` along `direction` until the first empty
site (the do-while increments before testing, so the result is ≥ 1).
`none` means the fuel ran out with every probed site occupied. -/
def stepsToEmpty (S : Finset (List ℤ)) : ℕ → List ℤ → List ℤ → Option ℕ
  | 0, _, _ => none
  | fuel + 1, c, d =>
    let c' := vadd c d
    if c' ∈ S then (stepsToEmpty S fuel c' d).map (· + 1) else some 1

/-- `Tissue::push(moving, direction)`: the sites visited by the
`do { moving->set_coord(coord + dir); } while (swap_existing(&moving));`
loop, in order; the last visited site is the first empty one, where the
chain ends (and which becomes newly occupied — every earlier site stays
occupied by the displaced residents). -/
def Tissue.push (S : Finset (List ℤ)) : ℕ → List ℤ → List ℤ → Option (List (List ℤ))
  | 0, _, _ => none
  | fuel + 1, c, d =>
    let c' := vadd c d
    if c' ∈ S then (Tissue.push S fuel c' d).map (c' :: ·) else some [c']

/-- The accumulator loop of `Tissue::to_nearest_empty`: fold over the
remaining (already shuffled) directions keeping the first direction of
strictly least `steps_to_empty` (the C++ `least_steps` starts at
`SIZE_MAX`, so the head of the list always seeds the accumulator). -/
def tneLoop (S : Finset (List ℤ)) (c : List ℤ) :
    List (List ℤ) → List ℤ × ℕ → Option (List ℤ × ℕ)
  | [], acc => some acc
  | d :: rest, acc =>
    match stepsToEmpty S (S.card + 1) c d with
    | none => none
    | some n => tneLoop S c rest (if n < acc.2 then (d, n) else acc)

/-- `Tissue::to_nearest_empty(current)`: the direction of least
`steps_to_empty` among the shuffled directions, together with that least
count.  (With the default `search_max = 26` no geometry's direction list
is truncated, so the resize is a no-op and is omitted.)  `none` only on
an empty direction list or fuel exhaustion inside `steps_to_empty`. -/
def toNearestEmpty (S : Finset (List ℤ)) (ds : List (List ℤ)) (c : List ℤ) :
    Option (List ℤ × ℕ) :=
  match ds with
  | [] => none
  | d :: rest =>
    match stepsToEmpty S (S.card + 1) c d with
    | none => none
    | some n => tneLoop S c rest (d, n)

/-- `Tissue::push_minimum_drag(moving)`: as `push`, but the direction is
recomputed by `to_nearest_empty` at every step.  `shufs i` is the
shuffled direction list used at the step with remaining fuel `i + 1`
(the shuffle order is drawn from the RNG; any permutation of the
geometry's directions). -/
def Tissue.push_minimum_drag (S : Finset (List ℤ)) (shufs : ℕ → List (List ℤ)) :
    ℕ → List ℤ → Option (List (List ℤ))
  | 0, _ => none
  | fuel + 1, c =>
    match toNearestEmpty S (shufs fuel) c with
    | none => none
    | some r =>
      let c' := vadd c r.1
      if c' ∈ S then (Tissue.push_minimum_drag S shufs fuel c').map (c' :: ·)
      else some [c']

/-! ## The growth loop (`Tissue::grow` and its helpers)

Randomness is supplied by a per-iteration oracle: index draws for
uniform choices, canonical draws, shuffle functions (used only through
permutation hypotheses), the mutation effect draws, and one raw draw
stream per `queue_push`.  Queue entries hold shared pointers in the
source; cells are values here, so the coordinate updates that aliasing
would propagate to queued cells (residents displaced by a push chain or
a migration swap) are applied to the queue explicitly via `applyMoves`. -/

/-- `Tissue::num_empty_neighbors(coord)`. -/
def numEmptyNeighbors (dirs : List (List ℤ)) (S : Finset (List ℤ))
    (c : List ℤ) : ℕ :=
  (dirs.filter (fun d => decide (vadd c d ∉ S))).length

/-- `Tissue::proportion_empty_neighbors(coord)`:
`num_empty_neighbors / directions().size()`. -/
def proportionEmptyNeighbors (dirs : List (List ℤ)) (S : Finset (List ℤ))
    (c : List ℤ) : ℚ :=
  (numEmptyNeighbors dirs S c : ℚ) / (dirs.length : ℚ)

/-- `Coord::random_neighbor(v, rng)`: `v + directions_[u]` for a uniform
index, the draw modelled by `idx` reduced mod the direction count. -/
def randomNeighbor (dirs : List (List ℤ)) (v : List ℤ) (idx : ℕ) : List ℤ :=
  vadd v (dirs.getD (idx % dirs.length) [])

/-- Modelled from the spec: `random_direction(rng)` of the geometry
interface (its body is not among the sources; spec §3: "`random_direction`
draws uniformly") — a uniformly drawn entry of the direction list, the
draw modelled by the index `idx`. -/
def randomDirection (dirs : List (List ℤ)) (idx : ℕ) : List ℤ :=
  dirs.getD (idx % dirs.length) []

/-- The try-each-neighbor loop of `Tissue::insert_adjacent`. -/
def insertAdjacentGo (S : Finset (List ℤ)) (d : Cell) :
    List (List ℤ) → Bool × Finset (List ℤ) × Cell
  | [] => (false, S, d)
  | x :: rest =>
    if x ∈ S then insertAdjacentGo S d rest
    else (true, insert x S, { d with coord := x })

/-- `Tissue::insert_adjacent(moving)`: place at the first free site of
the (shuffled) neighbor list; on total failure the coordinate is
restored and nothing changes. -/
def insertAdjacent (nbrs : List (List ℤ)) (S : Finset (List ℤ)) (d : Cell) :
    Bool × Finset (List ℤ) × Cell :=
  insertAdjacentGo S d nbrs

/-- `Tissue::roulette_direction(current)`: the `l == 0` early return is
dead code (`steps_to_empty` is ≥ 1); the `1/l`-weighted
`wtl::roulette_select` is an external utility whose outcome is the
oracle index into the shuffled list. -/
def rouletteDirection (S : Finset (List ℤ)) (ds : List (List ℤ)) (c : List ℤ)
    (idx : ℕ) : List ℤ :=
  match ds.find? (fun d => decide (stepsToEmpty S (S.card + 1) c d = some 0)) with
  | some d => d
  | none => ds.getD (idx % ds.length) []

/-- `Tissue::stroll(moving, direction)` at occupancy level: try
`insert_adjacent`; on failure advance one site along `direction` and
`swap_existing` (the set is unchanged at an occupied site, a free site
is inserted), then retry.  Fuel-bounded; on exhaustion the state is
returned unchanged (no claim concerns `stroll`, and its queue aliasing
fixups are omitted). -/
def strollWalk (nbrsOf : List ℤ → List (List ℤ)) (dir : List ℤ) :
    ℕ → Finset (List ℤ) → Cell → Finset (List ℤ) × Cell
  | 0, S, d => (S, d)
  | fuel + 1, S, d =>
    let r := insertAdjacent (nbrsOf d.coord) S d
    if r.1 then (r.2.1, r.2.2)
    else
      let c' := vadd d.coord dir
      let S' := if c' ∈ S then S else insert c' S
      strollWalk nbrsOf dir fuel S' { d with coord := c' }

/-- The rule selected by `init_insert_function` from the `-L`/`-P`
string pair. -/
inductive Rule where
  | constRandom
  | constMindrag
  | constMinstraight
  | constRoulette
  | constStroll
  | stepRandom
  | stepMindrag
  | linearRandom
  | linearMindrag
deriving DecidableEq

/-- The configuration of a `Tissue` run: the geometry's direction list,
the insert rule, the static `Cell` parameters, the driver mutation
rates, and the `grow` arguments. -/
structure GrowParams where
  directions : List (List ℤ)
  rule : Rule
  gammaShape : ℚ
  probSymmetric : ℚ
  rateB : ℚ
  rateD : ℚ
  rateM : ℚ
  maxSize : ℕ
  maxTime : WithTop ℚ
  snapshotInterval : WithTop ℚ

/-- The random draws consumed by one loop iteration, in call-site order
(the single seeded RNG stream of the program, split per call site). -/
structure GrowOracle where
  dirIdx : ℕ
  nbrIdx : ℕ
  migrIdx : ℕ
  u : ℚ
  rouletteIdx : ℕ
  shufNbrs : List (List ℤ) → List (List ℤ)
  shufDirs : ℕ → List (List ℤ) → List (List ℤ)
  diffU : ℚ
  mutM : MutDraws
  mutD : MutDraws
  forceD : ForceDraws
  rngDT1 : List ℚ
  rngDT2 : List ℚ

/-- The stem-to-nonstem downgrade with probability `1 − p_s` (the
post-copy step of the `Cell` copy constructor, invoked through the
`daughter->differentiate()` call site of `Tissue::grow`). -/
def Cell.differentiate (ps u : ℚ) (c : Cell) : Cell :=
  if c.type_ = CellType.stem ∧ ¬ bernoulliTrial ps u then
    { c with type_ := CellType.nonstem }
  else c

/-- `Cell::set_time_of_birth(t, i, ancestor)` (cell.hpp): set the birth
time, the fresh id and the ancestor link (the snapshot's id consed onto
its chain), and decrement the proliferation capacity of a nonstem cell
(a `uint_fast8_t`: decrementing 0 would wrap to 255; unreachable, since
an `ω = 0` cell never receives a birth event). -/
def Cell.set_time_of_birth (t : WithTop ℚ) (i : ℕ) (anc : Cell) (c : Cell) :
    Cell :=
  { c with time_of_birth := t, id := i, chain := anc.id :: anc.chain,
           proliferation_capacity :=
             if c.type_ = CellType.nonstem then
               (if c.proliferation_capacity = 0 then 255
                else c.proliferation_capacity - 1)
             else c.proliferation_capacity }

/-- Insertion into the time-ordered multimap `queue_`
(`emplace_hint(queue_.end(), …)`): among equal keys the new entry goes
last, so ties are processed in insertion order. -/
def queueInsert (k : WithTop ℚ) (c : Cell) :
    List (WithTop ℚ × Cell) → List (WithTop ℚ × Cell)
  | [] => [(k, c)]
  | (k', c') :: rest =>
    if k' ≤ k then (k', c') :: queueInsert k c rest
    else (k, c) :: (k', c') :: rest

/-- `Tissue::queue_push(x)`: compute `delta_time` (updating the cell's
`next_event_` and `elapsed_`) with `positional_value` hard-coded to
`1.0`, and insert at key `time_ + dt`. -/
def Tissue.queue_push (gammaShape : ℚ) (time : WithTop ℚ) (rng : List ℚ)
    (c : Cell) (q : List (WithTop ℚ × Cell)) : List (WithTop ℚ × Cell) :=
  let r := c.delta_time gammaShape 1 rng
  queueInsert (time + r.1) r.2.1 q

/-- The queue-side effect of pointer aliasing: entries whose cell sits at
an old position of `moves` now carry the corresponding new position. -/
def applyMoves (moves : List (List ℤ × List ℤ))
    (q : List (WithTop ℚ × Cell)) : List (WithTop ℚ × Cell) :=
  q.map (fun p =>
    (p.1,
      match moves.find? (fun mv => decide (mv.1 = p.2.coord)) with
      | some mv => { p.2 with coord := mv.2 }
      | none => p.2))

/-- The (old, new) coordinate pairs of the residents displaced by a push
chain that visited the given sites in order (the last site was free). -/
def chainMoves (visited : List (List ℤ)) : List (List ℤ × List ℤ) :=
  visited.zip visited.tail

/-- The effect of a successful `push(daughter, dir)`: the daughter takes
the first ray site, the first empty site becomes newly occupied, and the
displaced residents each shift one site outward.  On fuel exhaustion
(unreachable for a direction with a nonzero component, by
`push_termination_spec`) the state is returned unchanged. -/
def insertPush (S : Finset (List ℤ)) (daughter : Cell) (dir : List ℤ) :
    Bool × Finset (List ℤ) × Cell × List (List ℤ × List ℤ) :=
  match Tissue.push S (S.card + 1) daughter.coord dir with
  | some visited =>
    (true, insert (visited.getLastD daughter.coord) S,
      { daughter with coord := visited.headD daughter.coord },
      chainMoves visited)
  | none => (true, S, daughter, [])

/-- `Tissue::init_insert_function`: the nine `-L`/`-P` combinations.
Returns success, the updated occupancy, the daughter (holding its final
coordinate on success) and the displaced residents' moves. -/
def insertFn (P : GrowParams) (o : GrowOracle) (S : Finset (List ℤ))
    (daughter : Cell) :
    Bool × Finset (List ℤ) × Cell × List (List ℤ × List ℤ) :=
  match P.rule with
  | Rule.constRandom =>
    insertPush S daughter (randomDirection P.directions o.dirIdx)
  | Rule.constMindrag =>
    (match Tissue.push_minimum_drag S (fun i => o.shufDirs i P.directions)
        (S.card + 2) daughter.coord with
     | some visited =>
       (true, insert (visited.getLastD daughter.coord) S,
         { daughter with coord := visited.headD daughter.coord },
         chainMoves visited)
     | none => (true, S, daughter, []))
  | Rule.constMinstraight =>
    (match toNearestEmpty S (o.shufDirs 0 P.directions) daughter.coord with
     | some r => insertPush S daughter r.1
     | none => (true, S, daughter, []))
  | Rule.constRoulette =>
    insertPush S daughter
      (rouletteDirection S (o.shufDirs 0 P.directions) daughter.coord
        o.rouletteIdx)
  | Rule.constStroll =>
    let r := strollWalk (fun c => o.shufNbrs (Coord.neighbors P.directions c))
      (randomDirection P.directions o.dirIdx) (S.card + 2) S daughter
    (true, r.1, r.2, [])
  | Rule.stepRandom =>
    if numEmptyNeighbors P.directions S daughter.coord = 0 then
      (false, S, daughter, [])
    else insertPush S daughter (randomDirection P.directions o.dirIdx)
  | Rule.stepMindrag =>
    let r := insertAdjacent
      (o.shufNbrs (Coord.neighbors P.directions daughter.coord)) S daughter
    (r.1, r.2.1, r.2.2, [])
  | Rule.linearRandom =>
    if o.u < proportionEmptyNeighbors P.directions S daughter.coord then
      insertPush S daughter (randomDirection P.directions o.dirIdx)
    else (false, S, daughter, [])
  | Rule.linearMindrag =>
    let c' := randomNeighbor P.directions daughter.coord o.nbrIdx
    if c' ∈ S then (false, S, daughter, [])
    else (true, insert c' S, { daughter with coord := c' }, [])

/-- `Tissue::migrate(moving)`: pop from the occupancy and move to a
random neighbor; if the target is occupied, swap positions with the
resident (who goes back to the original position — the occupied set is
unchanged); otherwise the set exchanges the origin for the target.  The
third component is the resident's (old, new) position for the queue
fixup. -/
def Tissue.migrate (dirs : List (List ℤ)) (idx : ℕ) (S : Finset (List ℤ))
    (moving : Cell) : Finset (List ℤ) × Cell × List (List ℤ × List ℤ) :=
  let S1 := S.erase moving.coord
  let target := randomNeighbor dirs moving.coord idx
  if target ∈ S1 then
    (insert moving.coord S1, { moving with coord := target },
      [(target, moving.coord)])
  else
    (insert target S1, { moving with coord := target }, [])

/-- The loop-carried state of `Tissue::grow`: the event queue, the
occupancy (as the set of occupied sites), `id_tail_`, `time_`,
`i_snapshot_`, the history and the two output streams (snapshots
abstracted to one timestamp per `snapshots_append` call), plus the two
`grow` arguments that the loop body reassigns
(`recording_early_growth`, and `mutation_timing` with `none` for the
"disabled" `SIZE_MAX` sentinel). -/
structure GrowState where
  queue : List (WithTop ℚ × Cell)
  occupied : Finset (List ℤ)
  id_tail : ℕ
  time : WithTop ℚ
  i_snapshot : ℕ
  history : List Cell
  drivers : List DriverEntry
  snapshots : List (WithTop ℚ)
  recording_early_growth : ℕ
  mutation_timing : Option ℕ

/-- The tail of each loop iteration: below the early-growth threshold
append a snapshot, otherwise zero the threshold permanently so that
later cell death cannot retrigger recording. -/
def recordEarly (k : WithTop ℚ) (s : GrowState) : GrowState :=
  if s.occupied.card < s.recording_early_growth then
    { s with snapshots := s.snapshots ++ [k] }
  else { s with recording_early_growth := 0 }

/-- The `switch` on the popped cell's `next_event` in the loop body of
`Tissue::grow`: birth with the configured insert — on failure only the
mother is re-scheduled and the iteration ends with `continue`, skipping
the early-growth recording —, death with archival and possible
extinction exit, or migration; non-exiting paths finish with the
early-growth recording.  The boolean is the loop's `break`.  The popped
entry has already been erased from `s.queue`. -/
def growDispatch (P : GrowParams) (o : GrowOracle) (k : WithTop ℚ)
    (mother : Cell) (s : GrowState) : GrowState × Bool :=
  match mother.next_event with
      | Event.birth =>
        let ins := insertFn P o s.occupied mother
        if ins.1 then
          let anc := { mother with time_of_death := k }
          let mother1 := mother.set_time_of_birth k (s.id_tail + 1) anc
          let daughter1 :=
            (ins.2.2.1.differentiate P.probSymmetric o.diffU).set_time_of_birth
              k (s.id_tail + 2) anc
          let mm := Cell.mutate P.rateB P.rateD P.rateM o.mutM mother1
          let dm := Cell.mutate P.rateB P.rateD P.rateM o.mutD daughter1
          let post : Cell × List DriverEntry × Option ℕ :=
            match s.mutation_timing with
            | some m =>
              if m < ins.2.1.card then
                let fr := Cell.force_mutate o.forceD dm.1
                (fr.1, fr.2, none)
              else (dm.1, [], some m)
            | none => (dm.1, [], none)
          let q1 := applyMoves ins.2.2.2 s.queue
          let q2 := Tissue.queue_push P.gammaShape k o.rngDT1 mm.1 q1
          let q3 := Tissue.queue_push P.gammaShape k o.rngDT2 post.1 q2
          let s := { s with
            occupied := ins.2.1
            id_tail := s.id_tail + 2
            history := s.history ++ [anc]
            drivers := s.drivers ++ mm.2.2 ++ dm.2.2 ++ post.2.1
            mutation_timing := post.2.2
            queue := q3 }
          (recordEarly k s, false)
        else
          ({ s with
            queue := Tissue.queue_push P.gammaShape k o.rngDT1 mother s.queue },
            false)
      | Event.death =>
        let mother1 := { mother with time_of_death := k }
        let s := { s with
          history := s.history ++ [mother1]
          occupied := s.occupied.erase mother1.coord }
        if s.occupied = ∅ then (s, true)
        else (recordEarly k s, false)
      | Event.migration =>
        let r := Tissue.migrate P.directions o.migrIdx s.occupied mother
        let q1 := applyMoves r.2.2 s.queue
        let s := { s with
          occupied := r.1
          queue := Tissue.queue_push P.gammaShape k o.rngDT1 r.2.1 q1 }
        (recordEarly k s, false)

/-- One iteration of the `while (true)` loop of `Tissue::grow`: pop the
earliest entry, advance `time_`, exit on the time or size cap, append
the periodic snapshot when due, then dispatch the popped cell's
`next_event` via `growDispatch`.  An empty queue (ruled out by the
one-entry-per-extant-cell invariant; `queue_.begin()` would be
undefined) exits. -/
def growIter (P : GrowParams) (o : GrowOracle) (s : GrowState) :
    GrowState × Bool :=
  match s.queue with
  | [] => (s, true)
  | (k, mother) :: rest =>
    let s := { s with time := k }
    if k > P.maxTime ∨ P.maxSize ≤ s.occupied.card then (s, true)
    else
      let s :=
        if k > (s.i_snapshot : WithTop ℚ) * P.snapshotInterval then
          { s with
            snapshots := s.snapshots ++ [k]
            i_snapshot := s.i_snapshot + 1 }
        else s
      growDispatch P o k mother { s with queue := rest }

/-- Every queue entry's key is at or after the given time (spec §8:
`scheduler.time(c) ≥ simulation_time`). -/
def queueKeysGE (t : WithTop ℚ) (q : List (WithTop ℚ × Cell)) : Prop :=
  ∀ p ∈ q, t ≤ p.1

/-- The queue is ordered by key (the `std::multimap` invariant). -/
def queueSorted (q : List (WithTop ℚ × Cell)) : Prop :=
  q.Pairwise (fun a b => a.1 ≤ b.1)

/-! ## A concrete configuration for evaluating the growth loop -/

/-- A concrete 2D Moore configuration with the step/random insert rule
and snapshot interval `1/2`. -/
def failDemoParams : GrowParams :=
  { directions := Moore.directions 2, rule := Rule.stepRandom,
    gammaShape := 1, probSymmetric := 1, rateB := 0, rateD := 0, rateM := 0,
    maxSize := 100, maxTime := ((100 : ℚ) : WithTop ℚ),
    snapshotInterval := ((1/2 : ℚ) : WithTop ℚ) }

/-- A fixed oracle; no draws are consumed on the inspected paths. -/
def failDemoOracle : GrowOracle :=
  { dirIdx := 0, nbrIdx := 0, migrIdx := 0, u := 0, rouletteIdx := 0,
    shufNbrs := id, shufDirs := fun _ l => l, diffU := 0,
    mutM := ⟨0, 0, 0, 0, 0, 0⟩, mutD := ⟨0, 0, 0, 0, 0, 0⟩,
    forceD := ⟨0, 0, 0⟩, rngDT1 := [], rngDT2 := [] }

/-- A mother cell at the origin scheduled for birth (the default
`next_event`). -/
def failDemoMother : Cell :=
  { coord := [0, 0], rates := ⟨1, 0, 0, 0⟩, id := 1 }

/-- A grow state with a full 3×3 occupied block (so every Moore neighbor
of the mother is occupied and a step-rule insertion must fail), one
queue entry at time 1, and `i_snapshot = 1`, so the periodic snapshot at
`1 · 1/2 = 1/2 < 1` is due in the same iteration. -/
def failDemoState : GrowState :=
  { queue := [(((1 : ℚ) : WithTop ℚ), failDemoMother)],
    occupied := {[0, 0], [-1, -1], [-1, 0], [-1, 1], [0, -1], [0, 1],
      [1, -1], [1, 0], [1, 1]},
    id_tail := 9, time := 0, i_snapshot := 1, history := [], drivers := [],
    snapshots := [], recording_early_growth := 0, mutation_timing := none }

/-! ## Theorems -/

/-- **C9.** The geometry direction sets contain exactly these numbers of
pairwise-distinct vectors: von-Neumann 4 in 2D and 6 in 3D, Moore 8 in 2D
and 26 in 3D, Hexagonal 6 in 2D and 12 in 3D. -/
theorem direction_set_counts :
    ((Neumann.directions 2).length = 4 ∧ (Neumann.directions 2).Nodup) ∧
    ((Neumann.directions 3).length = 6 ∧ (Neumann.directions 3).Nodup) ∧
    ((Moore.directions 2).length = 8 ∧ (Moore.directions 2).Nodup) ∧
    ((Moore.directions 3).length = 26 ∧ (Moore.directions 3).Nodup) ∧
    ((Hexagonal.directions 2).length = 6 ∧ (Hexagonal.directions 2).Nodup) ∧
    ((Hexagonal.directions 3).length = 12 ∧ (Hexagonal.directions 3).Nodup) := by
  decide

/-- **C5.** The claim states that `euclidean_distance` invoked through the
tissue's geometry handle (a `Coord` pointer) equals `graph_distance` for
the hexagonal geometry.  The member `Hexagonal::euclidean_distance` is
indeed defined as `graph_distance` (first conjunct), but
`Coord::euclidean_distance` is not `virtual`, so the call
`coord_func_->euclidean_distance(diff)` made by `Tissue::pairwise_distance`
resolves to the base-class L2 distance `sqrt(Σ xᵢ²)`.  At the displacement
`(1,1)` the handle returns `√2 ≈ 1.414` while `graph_distance` is `2`:
since both are nonnegative, `√(Σ xᵢ²) = g` iff `Σ xᵢ² = g²`, and here
`Σ xᵢ² = 2 ≠ 4 = g²` (second conjunct).  The code contradicts the
documented design choice; the claim matches the intent. -/
theorem hexagonal_euclidean_handle_mismatch :
    Hexagonal.euclidean_distance [1, 1] = Hexagonal.graph_distance [1, 1] ∧
    Coord.euclidean_distance_sq [1, 1] ≠ ((Hexagonal.graph_distance [1, 1] : ℤ)) ^ 2 := by
  decide

/-- **C1.** Each successful Bernoulli trial in `mutate()` copies-on-write
the rates and multiplies the affected rate by `(1 + s)` — true for the
birth and migra traits and for `death_rate` — but the claim's final
clause fails: on a death hit the source executes
`death_rate *= (s += 1.0); death_prob *= (s += 1.0);`, so `death_prob`
is multiplied by `(2 + s)`, not by the same `(1 + s)`.
`force_mutate` in the same file applies `(1.0 + s_death)` to both
fields, so the double increment contradicts the code's own convention:
a code bug.  Evaluation at the failing input (all three trials hit with
probability-1 rates, so no canonical draws are consumed; drawn effects
`s_β = 1/10`, `s_δ = 1/2`, `s_ρ = 1/4`; initial rates all `1`): the
three copy-on-write allocations and the log match the claim, the death
trait multiplies `death_rate` by `1 + s_δ = 3/2` but `death_prob` by
`2 + s_δ = 5/2 ≠ 3/2`. -/
theorem mutate_death_prob_factor :
    (Cell.mutate 1 1 1 ⟨0, 0, 0, 1/10, 1/2, 1/4⟩
        { genealogyCell 7 [] with rates := ⟨1, 1, 1, 1⟩ }).1.rates =
      ⟨1 * (1 + 1/10), 1 * (1 + 1/2), 1 * (2 + 1/2), 1 * (1 + 1/4)⟩ ∧
    (1 : ℚ) * (2 + 1/2) ≠ 1 * (1 + 1/2) ∧
    (Cell.mutate 1 1 1 ⟨0, 0, 0, 1/10, 1/2, 1/4⟩
        { genealogyCell 7 [] with rates := ⟨1, 1, 1, 1⟩ }).2.1 = 3 ∧
    (Cell.mutate 1 1 1 ⟨0, 0, 0, 1/10, 1/2, 1/4⟩
        { genealogyCell 7 [] with rates := ⟨1, 1, 1, 1⟩ }).2.2 =
      [⟨7, Trait.birth, 1/10⟩, ⟨7, Trait.death, 1/2⟩, ⟨7, Trait.migra, 1/4⟩] := by
  refine ⟨?_, by norm_num, ?_, ?_⟩ <;> with_unfolding_all decide

/-- **C6, counterexample.**  `branch_length` is not symmetric on every
pair of cells of a recorded genealogy.  Take the run: the origin (id 1)
divides, archiving snapshot `(id 1, no ancestor)` and renaming the
mother to id 2 with chain `[1]`; the mother divides again, archiving
snapshot `(id 2, chain [1])` and renaming herself to id 4 with chain
`[2, 1]`.  Then the extant cell `a = (4, [2,1])` and the recorded
snapshot `b = (2, [1])` satisfy `a.branch_length b = 3` but
`b.branch_length a = 2`: walking from `b` the MRCA found is id 2 itself
(0 steps), while walking from `a` the MRCA found is id 1, so the two
walks count different divisions. -/
theorem branch_length_asymmetry_counterexample :
    (genealogyCell 4 [2, 1]).branch_length (genealogyCell 2 [1]) = some 3 ∧
    (genealogyCell 2 [1]).branch_length (genealogyCell 4 [2, 1]) = some 2 ∧
    (some 3 : Option ℕ) ≠ some 2 := by
  decide

/-- **C2, counterexample.**  With `t_death = t_migra` (both sampled `5`:
unit-exponential draws `5` with rates `1`) and `t_birth = +inf`
(`proliferation_capacity = 0`), the claim prescribes the death branch
(`t_death ≤ t_migra`), but the source tests `t_death < t_migra` strictly
and falls through to the migration branch: the event is migration,
`t_migra` is added to `elapsed`, and `t_migra` is returned. -/
theorem delta_time_tie_counterexample :
    (sampleExp (1 : ℚ) [5, 5]).1 = ((5 : ℚ) : WithTop ℚ) ∧
    (sampleExp (1 : ℚ) [5]).1 = ((5 : ℚ) : WithTop ℚ) ∧
    (Cell.delta_time 1 1 [5, 5]
      { rates := ⟨1, 1, 0, 1⟩, proliferation_capacity := 0 }).1 =
        ((5 : ℚ) : WithTop ℚ) ∧
    (Cell.delta_time 1 1 [5, 5]
      { rates := ⟨1, 1, 0, 1⟩, proliferation_capacity := 0 }).2.1.next_event =
        Event.migration ∧
    (Cell.delta_time 1 1 [5, 5]
      { rates := ⟨1, 1, 0, 1⟩, proliferation_capacity := 0 }).2.1.elapsed =
        ((5 : ℚ) : WithTop ℚ) ∧
    Event.migration ≠ Event.death := by
  with_unfolding_all decide

/-- **C2, amended.**  The branch structure of `delta_time`, stated
against the three sampled candidate times: the birth branch fires iff
`t_birth` is *strictly* below `min t_death t_migra` (then the event is
death with probability α — one Bernoulli draw — and birth otherwise,
`elapsed` is reset to `0`, and `t_birth` is returned); otherwise the
death branch fires iff `t_death < t_migra` *strictly* and returns
`t_death`; otherwise (including the tie `t_death = t_migra`) the event
is migration, `t_migra` is added to `elapsed`, and `t_migra` is
returned. -/
theorem delta_time_branch_spec (k pv : ℚ) (rng rng1 rng2 rng3 : List ℚ)
    (c : Cell) (tb td tm : WithTop ℚ)
    (hb : sampleBirth c.proliferation_capacity c.rates.birth_rate pv k c.elapsed rng
            = (tb, rng1))
    (hd : sampleExp c.rates.death_rate rng1 = (td, rng2))
    (hm : sampleExp c.rates.migra_rate rng2 = (tm, rng3)) :
    (tb < min td tm →
      c.delta_time k pv rng =
        (tb,
          { c with next_event := if (bernoulliDraw c.rates.death_prob rng3).1
                                  then Event.death else Event.birth,
                   elapsed := 0 },
          (bernoulliDraw c.rates.death_prob rng3).2)) ∧
    (min td tm ≤ tb → td < tm →
      c.delta_time k pv rng = (td, { c with next_event := Event.death }, rng3)) ∧
    (min td tm ≤ tb → tm ≤ td →
      c.delta_time k pv rng =
        (tm, { c with next_event := Event.migration,
                      elapsed := c.elapsed + tm }, rng3)) := by
  refine ⟨fun h => ?_, fun h1 h2 => ?_, fun h1 h2 => ?_⟩ <;>
    simp only [Cell.delta_time, hb, hd, hm]
  · rw [if_pos (lt_min_iff.mp h)]
  · have hnb : ¬(tb < td ∧ tb < tm) := fun hcon =>
      absurd h1 (not_le.mpr (lt_min_iff.mpr hcon))
    rw [if_neg hnb, if_pos h2]
  · have hnb : ¬(tb < td ∧ tb < tm) := fun hcon =>
      absurd h1 (not_le.mpr (lt_min_iff.mpr hcon))
    rw [if_neg hnb, if_neg (not_lt.mpr h2)]

/-- Witness for `delta_time_branch_spec`: a cell with
`proliferation_capacity = 0` (so `t_birth = ∞`), death and migra rates
`1`, and draw stream `[3, 7]`, taking the death branch. -/
theorem delta_time_branch_spec_witness :
    Cell.delta_time 1 1 [3, 7]
        { rates := ⟨1, 1, 0, 1⟩, proliferation_capacity := 0 } =
      (((3 : ℚ) : WithTop ℚ),
        { rates := ⟨1, 1, 0, 1⟩, proliferation_capacity := 0,
          next_event := Event.death }, ([] : List ℚ)) := by
  have h := delta_time_branch_spec 1 1 [3, 7] [3, 7] [7] []
    { rates := ⟨1, 1, 0, 1⟩, proliferation_capacity := 0 }
    ⊤ ((3 : ℚ) : WithTop ℚ) ((7 : ℚ) : WithTop ℚ)
    (by with_unfolding_all decide) (by with_unfolding_all decide)
    (by with_unfolding_all decide)
  exact h.2.1 (by with_unfolding_all decide) (by with_unfolding_all decide)

/-- **C7.** The numeric edge cases of `delta_time`: an exponential event
whose rate is `0` keeps its time at `+inf` and consumes nothing from the
draw stream (`sampleExp` embeds the guarded `if (rate > 0.0)` block, used
for both death and migration); with zero death rate, zero migration rate
and zero proliferation capacity the whole call consumes no draws and
returns `+inf`; a zero birth rate (the guard `β·pv = 0` models the IEEE
`1/0 = inf` flowing through the gamma scale) or zero proliferation
capacity never yields a birth event; and the gamma scale
`max(mu/k, 0.0)` is never negative. -/
theorem delta_time_zero_rate_safety :
    (∀ rng : List ℚ, sampleExp 0 rng = (⊤, rng)) ∧
    (∀ (k pv : ℚ) (rng : List ℚ) (c : Cell),
      c.rates.death_rate = 0 → c.rates.migra_rate = 0 →
      c.proliferation_capacity = 0 →
      (c.delta_time k pv rng).2.2 = rng ∧ (c.delta_time k pv rng).1 = ⊤) ∧
    (∀ (k pv : ℚ) (rng : List ℚ) (c : Cell),
      c.rates.birth_rate = 0 ∨ c.proliferation_capacity = 0 →
      (c.delta_time k pv rng).2.1.next_event ≠ Event.birth) ∧
    (∀ (β pv k : ℚ) (elapsed : WithTop ℚ),
      (0 : WithTop ℚ) ≤ gammaTheta β pv k elapsed) := by
  refine ⟨?_, ?_, ?_, ?_⟩
  · intro rng
    simp [sampleExp]
  · intro k pv rng c hδ hρ hω
    simp [Cell.delta_time, sampleExp, sampleBirth, hδ, hρ, hω]
  · intro k pv rng c h
    have htb : (sampleBirth c.proliferation_capacity c.rates.birth_rate pv k
        c.elapsed rng).1 = ⊤ := by
      rcases h with hβ | hω
      · simp only [sampleBirth, gammaTheta, hβ, zero_mul, if_pos rfl]
        split_ifs with h1 h2
        · rfl
        · exact absurd rfl h2
        · rfl
      · simp [sampleBirth, hω]
    simp only [Cell.delta_time, htb]
    rw [if_neg (fun hcon => not_top_lt hcon.1)]
    split_ifs <;> simp
  · intro β pv k elapsed
    unfold gammaTheta
    split_ifs
    · exact le_top
    · exact le_refl _
    · rw [← WithTop.coe_zero, WithTop.coe_le_coe]
      exact le_max_right _ _

/-- Witness for `delta_time_zero_rate_safety`: a zero-rate cell at
concrete inputs. -/
theorem delta_time_zero_rate_safety_witness :
    sampleExp 0 [9] = ((⊤ : WithTop ℚ), [9]) ∧
    (Cell.delta_time 1 1 [4]
        { rates := ⟨0, 0, 0, 0⟩, proliferation_capacity := 0 }).2.2 = [4] ∧
    (Cell.delta_time 1 1 [4]
        { rates := ⟨0, 0, 0, 0⟩, proliferation_capacity := 0 }).2.1.next_event ≠
      Event.birth ∧
    (0 : WithTop ℚ) ≤ gammaTheta 0 1 1 0 :=
  ⟨delta_time_zero_rate_safety.1 [9],
   (delta_time_zero_rate_safety.2.1 1 1 [4]
      { rates := ⟨0, 0, 0, 0⟩, proliferation_capacity := 0 } rfl rfl rfl).1,
   delta_time_zero_rate_safety.2.2.1 1 1 [4]
      { rates := ⟨0, 0, 0, 0⟩, proliferation_capacity := 0 } (Or.inl rfl),
   delta_time_zero_rate_safety.2.2.2 0 1 1 0⟩

/-- `findMRCA` on a chain `tb ++ m :: s'` whose prefix avoids the
genealogy and whose pivot lies in it: the first loop of `branch_length`
breaks at `m` after `tb.length` increments. -/
theorem findMRCA_eq (gen : List ℕ) (tb : List ℕ) (m : ℕ) (s' : List ℕ)
    (h1 : ∀ x ∈ tb, x ∉ gen) (h2 : m ∈ gen) :
    findMRCA gen (tb ++ m :: s') = (tb.length, m) := by
  induction tb with
  | nil => simp [findMRCA, h2]
  | cons x xs ih =>
    simp only [List.cons_append, findMRCA]
    rw [if_neg (h1 x (List.mem_cons_self x xs))]
    have hxs := ih (fun y hy => h1 y (List.mem_cons_of_mem x hy))
    simp [hxs]

/-- `ancWalk` on a chain `ta ++ m :: s'` whose prefix is strictly above
the MRCA: the second loop of `branch_length` stops at `m` after
`ta.length` increments. -/
theorem ancWalk_eq (m : ℕ) (ta s' : List ℕ) (h : ∀ x ∈ ta, m < x) :
    ancWalk m (ta ++ m :: s') = some ta.length := by
  induction ta with
  | nil => simp [ancWalk]
  | cons x xs ih =>
    simp only [List.cons_append, ancWalk, List.append_eq]
    rw [if_pos (h x (List.mem_cons_self x xs))]
    rw [ih (fun y hy => h y (List.mem_cons_of_mem x hy))]
    rfl

/-- **C6, amended.**  `branch_length(c, c) = 0` for every cell.
Symmetry holds for every pair of distinct cells of a genealogy forest
whose chains merge into a shared suffix (the tree property: the
non-shared prefixes `ta`, `tb` are disjoint, neither cell's id occurs in
the other's prefix, and ids strictly decrease up every chain — all
invariants of the recorded genealogy), *provided neither cell is an
ancestor snapshot of the other* (the shared suffix `s` is nonempty and
the ids differ, which excludes exactly that case together with the
prefix conditions).  In particular any two distinct extant cells
satisfy the hypotheses and `branch_length` is symmetric on them; the
counterexample shows symmetry indeed fails for an ancestor-descendant
pair, so the claim's unrestricted quantification is too strong. -/
theorem branch_length_spec :
    (∀ c : Cell, c.branch_length c = some 0) ∧
    (∀ (a b : Cell) (ta tb s : List ℕ),
      a.chain = ta ++ s → b.chain = tb ++ s → s ≠ [] → a.id ≠ b.id →
      (a.id :: a.chain).Pairwise (· > ·) →
      (b.id :: b.chain).Pairwise (· > ·) →
      a.id ∉ tb → b.id ∉ ta → (∀ x ∈ ta, x ∉ tb) →
      a.branch_length b = some (2 + tb.length + ta.length) ∧
      a.branch_length b = b.branch_length a) := by
  constructor
  · intro c
    simp [Cell.branch_length]
  · intro a b ta tb s ha hb hs hne hpa hpb haid hbid hdisj
    obtain ⟨m, s', rfl⟩ := List.exists_cons_of_ne_nil hs
    have paCons := List.pairwise_cons.mp hpa
    have pbCons := List.pairwise_cons.mp hpb
    have paApp := List.pairwise_append.mp (ha ▸ paCons.2)
    have pbApp := List.pairwise_append.mp (hb ▸ pbCons.2)
    have hta_gt : ∀ x ∈ ta, m < x :=
      fun x hx => paApp.2.2 x hx m (List.mem_cons_self m s')
    have htb_gt : ∀ x ∈ tb, m < x :=
      fun x hx => pbApp.2.2 x hx m (List.mem_cons_self m s')
    have htb_not : ∀ x ∈ tb, x ∉ a.id :: a.chain := by
      intro x hx hmem
      rcases List.mem_cons.mp hmem with h1 | h2
      · exact haid (h1 ▸ hx)
      · rw [ha] at h2
        rcases List.mem_append.mp h2 with h3 | h4
        · exact hdisj x h3 hx
        · exact lt_irrefl x (pbApp.2.2 x hx x h4)
    have hta_not : ∀ x ∈ ta, x ∉ b.id :: b.chain := by
      intro x hx hmem
      rcases List.mem_cons.mp hmem with h1 | h2
      · exact hbid (h1 ▸ hx)
      · rw [hb] at h2
        rcases List.mem_append.mp h2 with h3 | h4
        · exact hdisj x hx h3
        · exact lt_irrefl x (paApp.2.2 x hx x h4)
    have hmA : m ∈ a.id :: a.chain := by
      rw [ha]
      exact List.mem_cons_of_mem _ (List.mem_append_right ta (List.mem_cons_self m s'))
    have hmB : m ∈ b.id :: b.chain := by
      rw [hb]
      exact List.mem_cons_of_mem _ (List.mem_append_right tb (List.mem_cons_self m s'))
    have e1 : a.branch_length b = some (2 + tb.length + ta.length) := by
      unfold Cell.branch_length
      rw [if_neg hne]
      simp only [Cell.traceback]
      rw [hb, findMRCA_eq _ _ _ _ htb_not hmA]
      rw [ha, ancWalk_eq _ _ _ hta_gt]
      rfl
    have e2 : b.branch_length a = some (2 + ta.length + tb.length) := by
      unfold Cell.branch_length
      rw [if_neg (Ne.symm hne)]
      simp only [Cell.traceback]
      rw [ha, findMRCA_eq _ _ _ _ hta_not hmB]
      rw [hb, ancWalk_eq _ _ _ htb_gt]
      rfl
    refine ⟨e1, ?_⟩
    rw [e1, e2]
    exact congrArg some (by omega)

/-- Witness for `branch_length_spec`: reflexivity on a concrete cell, and
symmetry on the two extant siblings `(5, [2,1])` and `(4, [2,1])` of the
run described in the counterexample. -/
theorem branch_length_spec_witness :
    (genealogyCell 3 []).branch_length (genealogyCell 3 []) = some 0 ∧
    (genealogyCell 5 [2, 1]).branch_length (genealogyCell 4 [2, 1]) = some 2 ∧
    (genealogyCell 5 [2, 1]).branch_length (genealogyCell 4 [2, 1]) =
      (genealogyCell 4 [2, 1]).branch_length (genealogyCell 5 [2, 1]) := by
  have h := branch_length_spec.2 (genealogyCell 5 [2, 1]) (genealogyCell 4 [2, 1])
    [] [] [2, 1] rfl rfl (by decide) (by decide) (by decide) (by decide)
    (by decide) (by decide) (fun x hx => absurd hx (List.not_mem_nil x))
  exact ⟨branch_length_spec.1 (genealogyCell 3 []), by simpa using h.1, h.2⟩

/-- The selection loop of `write_segsites` is exactly a filter on the
derived-allele frequency. -/
theorem selectSegsites_eq_filter (n : ℕ) (l : List (List ℕ)) :
    selectSegsites n l = l.filter (fun r => decide (0 < r.sum ∧ r.sum < n)) := by
  induction l with
  | nil => rfl
  | cons r rest ih =>
    by_cases h : 0 < r.sum ∧ r.sum < n
    · simp [selectSegsites, h, ih]
    · simp [selectSegsites, h, ih]

/-- **C8.** `write_segsites` emits exactly the sites whose derived-allele
frequency over the samples lies strictly between 0 and the sample size
(the kept site rows are the in-range filter of the transposed genotype
matrix, in order), every kept row's column-sum is in range, the
`segsites:` line reports their number `s`, and when `s = 0` the output
is the header plus one extra blank line in place of the `positions:`
line and the sample rows. -/
theorem write_segsites_spec (samples : List Cell) (mutants : List ℕ) :
    let flags := samples.map (fun c => c.has_mutations_of mutants)
    let sites := wtlTranspose flags
    let seg := selectSegsites samples.length sites
    let s := seg.length
    let sp := " "
    let zero := "0"
    seg = sites.filter (fun r => decide (0 < r.sum ∧ r.sum < samples.length)) ∧
    (∀ r ∈ seg, 0 < r.sum ∧ r.sum < samples.length) ∧
    (s = 0 → write_segsites samples mutants = ["", "//", "segsites: 0", ""]) ∧
    (0 < s → write_segsites samples mutants =
      ["", "//", "segsites: " ++ toString s,
        "positions: " ++ String.intercalate sp (List.replicate s zero)] ++
        (wtlTranspose seg).map (fun row => String.join (row.map toString))) := by
  refine ⟨selectSegsites_eq_filter _ _, ?_, ?_, ?_⟩
  · intro r hr
    rw [selectSegsites_eq_filter] at hr
    have := List.of_mem_filter hr
    exact of_decide_eq_true this
  · intro h0
    simp only [write_segsites, h0]
    rfl
  · intro h0
    simp only [write_segsites]
    rw [if_pos h0]
    rfl

/-- Witness for `write_segsites_spec`: the two extant cells `(2, [1])`
and `(3, [1])` with mutant sites `[1, 2, 3]`; site 1 is fixed (frequency
2 of 2) and dropped, sites 2 and 3 are segregating. -/
theorem write_segsites_spec_witness :
    write_segsites [genealogyCell 2 [1], genealogyCell 3 [1]] [1, 2, 3] =
      ["", "//", "segsites: 2", "positions: 0 0", "10", "01"] := by
  have h := write_segsites_spec [genealogyCell 2 [1], genealogyCell 3 [1]] [1, 2, 3]
  exact (h.2.2.2 (by decide)).trans (by decide)

/-- Length of a componentwise sum. -/
theorem vadd_length (a b : List ℤ) : (vadd a b).length = min a.length b.length :=
  List.length_zipWith ..

/-- `vsmul 1` is the identity. -/
theorem vsmul_one (d : List ℤ) : vsmul 1 d = d := by
  simp [vsmul]

/-- Stepping once more along the ray: `(c + d) + n·d = c + (n+1)·d`. -/
theorem vadd_vsmul_succ (c d : List ℤ) (n : ℕ) :
    vadd (vadd c d) (vsmul n d) = vadd c (vsmul (n + 1) d) := by
  induction c generalizing d with
  | nil => simp [vadd]
  | cons x xs ih =>
    cases d with
    | nil => simp [vadd, vsmul]
    | cons y ys =>
      simp only [vadd, vsmul, List.map_cons, List.zipWith_cons_cons,
        List.cons.injEq] at *
      exact ⟨by push_cast; ring, ih ys⟩

/-- Along a nonzero direction the ray points `c + i·d` are pairwise
distinct. -/
theorem vadd_vsmul_injective (c d : List ℤ) (hl : c.length = d.length)
    (hd : ∃ x ∈ d, x ≠ 0) {m n : ℕ}
    (h : vadd c (vsmul m d) = vadd c (vsmul n d)) : m = n := by
  induction c generalizing d with
  | nil =>
    obtain ⟨x, hx, _⟩ := hd
    have hdn : d = [] := List.length_eq_zero.mp hl.symm
    rw [hdn] at hx
    exact absurd hx (List.not_mem_nil x)
  | cons x xs ih =>
    cases d with
    | nil =>
      obtain ⟨z, hz, _⟩ := hd
      exact absurd hz (List.not_mem_nil z)
    | cons y ys =>
      simp only [vadd, vsmul, List.map_cons, List.zipWith_cons_cons,
        List.cons.injEq] at h
      obtain ⟨h1, h2⟩ := h
      rcases hd with ⟨z, hz, hz0⟩
      rcases List.mem_cons.mp hz with heq | hzys
      · subst heq
        have hmn : (m : ℤ) = n := mul_right_cancel₀ hz0 (by linarith)
        exact_mod_cast hmn
      · exact ih ys (by simpa using hl) ⟨z, hzys, hz0⟩ h2

/-- If `steps_to_empty` exhausts its fuel, every probed ray point is
occupied. -/
theorem stepsToEmpty_none_mem (S : Finset (List ℤ)) :
    ∀ (f : ℕ) (c d : List ℤ), stepsToEmpty S f c d = none →
      ∀ i, 1 ≤ i → i ≤ f → vadd c (vsmul i d) ∈ S := by
  intro f
  induction f with
  | zero => intro c d _ i h1 h2; omega
  | succ f ih =>
    intro c d h i h1 h2
    simp only [stepsToEmpty] at h
    by_cases hc : vadd c d ∈ S
    · rw [if_pos hc] at h
      have hin := Option.map_eq_none'.mp h
      rcases Nat.lt_or_ge i 2 with hi | hi
      · have : i = 1 := by omega
        subst this
        rw [vsmul_one]
        exact hc
      · have hmem := ih (vadd c d) d hin (i - 1) (by omega) (by omega)
        rw [vadd_vsmul_succ] at hmem
        have : i - 1 + 1 = i := by omega
        rwa [this] at hmem
    · rw [if_neg hc] at h
      exact absurd h (by simp)

/-- `steps_to_empty` is at least 1 (the do-while increments before
testing). -/
theorem stepsToEmpty_pos (S : Finset (List ℤ)) :
    ∀ (f : ℕ) (c d : List ℤ) (k : ℕ), stepsToEmpty S f c d = some k → 1 ≤ k := by
  intro f
  induction f with
  | zero => intro c d k h; exact absurd h (by simp [stepsToEmpty])
  | succ f ih =>
    intro c d k h
    simp only [stepsToEmpty] at h
    by_cases hc : vadd c d ∈ S
    · rw [if_pos hc] at h
      obtain ⟨j, _, hjk⟩ := Option.map_eq_some'.mp h
      omega
    · rw [if_neg hc] at h
      injection h with h'
      omega

/-- A successful `steps_to_empty` count is bounded by the fuel. -/
theorem stepsToEmpty_le_fuel (S : Finset (List ℤ)) :
    ∀ (f : ℕ) (c d : List ℤ) (k : ℕ), stepsToEmpty S f c d = some k → k ≤ f := by
  intro f
  induction f with
  | zero => intro c d k h; exact absurd h (by simp [stepsToEmpty])
  | succ f ih =>
    intro c d k h
    simp only [stepsToEmpty] at h
    by_cases hc : vadd c d ∈ S
    · rw [if_pos hc] at h
      obtain ⟨j, hj, hjk⟩ := Option.map_eq_some'.mp h
      have := ih _ _ _ hj
      omega
    · rw [if_neg hc] at h
      injection h with h'
      omega

/-- A successful `steps_to_empty` result is stable under more fuel. -/
theorem stepsToEmpty_mono (S : Finset (List ℤ)) :
    ∀ (f : ℕ) (c d : List ℤ) (k : ℕ), stepsToEmpty S f c d = some k →
      stepsToEmpty S (f + 1) c d = some k := by
  intro f
  induction f with
  | zero => intro c d k h; exact absurd h (by simp [stepsToEmpty])
  | succ f ih =>
    intro c d k h
    have e : stepsToEmpty S (f + 1 + 1) c d =
        if vadd c d ∈ S then (stepsToEmpty S (f + 1) (vadd c d) d).map (· + 1)
        else some 1 := rfl
    simp only [stepsToEmpty] at h
    by_cases hc : vadd c d ∈ S
    · rw [if_pos hc] at h
      obtain ⟨j, hj, hjk⟩ := Option.map_eq_some'.mp h
      rw [e, if_pos hc, ih _ _ _ hj]
      simp [hjk]
    · rw [if_neg hc] at h
      rw [e, if_neg hc]
      exact h

/-- With a nonzero direction, fuel `|S| + 1` always suffices for
`steps_to_empty`: a finite occupancy cannot cover `|S| + 1` distinct ray
points. -/
theorem stepsToEmpty_isSome (S : Finset (List ℤ)) (c d : List ℤ)
    (hl : c.length = d.length) (hd : ∃ x ∈ d, x ≠ 0) :
    ∃ k, stepsToEmpty S (S.card + 1) c d = some k := by
  cases h : stepsToEmpty S (S.card + 1) c d with
  | some k => exact ⟨k, rfl⟩
  | none =>
    exfalso
    have hall := stepsToEmpty_none_mem S _ c d h
    have hmaps : ∀ i ∈ Finset.range (S.card + 1), vadd c (vsmul (i + 1) d) ∈ S := by
      intro i hi
      rw [Finset.mem_range] at hi
      exact hall (i + 1) (by omega) (by omega)
    have hinj : Set.InjOn (fun i => vadd c (vsmul (i + 1) d))
        (Finset.range (S.card + 1)) := by
      intro i _ j _ hij
      have := vadd_vsmul_injective c d hl hd hij
      omega
    have hle := Finset.card_le_card_of_injOn _ hmaps hinj
    rw [Finset.card_range] at hle
    omega

/-- `push` succeeds whenever `steps_to_empty` does with the same fuel:
the two loops probe exactly the same ray. -/
theorem push_isSome_of_steps (S : Finset (List ℤ)) :
    ∀ (f : ℕ) (c d : List ℤ), (∃ k, stepsToEmpty S f c d = some k) →
      ∃ vs, Tissue.push S f c d = some vs := by
  intro f
  induction f with
  | zero =>
    rintro c d ⟨k, h⟩
    exact absurd h (by simp [stepsToEmpty])
  | succ f ih =>
    rintro c d ⟨k, h⟩
    simp only [stepsToEmpty] at h
    simp only [Tissue.push]
    by_cases hc : vadd c d ∈ S
    · rw [if_pos hc] at h ⊢
      obtain ⟨j, hj, _⟩ := Option.map_eq_some'.mp h
      obtain ⟨vs, hvs⟩ := ih _ _ ⟨j, hj⟩
      exact ⟨_, by rw [hvs]; rfl⟩
    · rw [if_neg hc]
      exact ⟨_, rfl⟩

/-- A `steps_to_empty` count of 1 means the adjacent site is free. -/
theorem stepsToEmpty_one (S : Finset (List ℤ)) (c d : List ℤ)
    (h : stepsToEmpty S (S.card + 1) c d = some 1) : vadd c d ∉ S := by
  intro hc
  have e : stepsToEmpty S (S.card + 1) c d =
      if vadd c d ∈ S then (stepsToEmpty S S.card (vadd c d) d).map (· + 1)
      else some 1 := rfl
  rw [e, if_pos hc] at h
  obtain ⟨j, hj, hjk⟩ := Option.map_eq_some'.mp h
  have := stepsToEmpty_pos S _ _ _ _ hj
  omega

/-- A `steps_to_empty` count of `n ≥ 2` means the adjacent site is
occupied and the count from there along the same direction is `n − 1`. -/
theorem stepsToEmpty_decrement (S : Finset (List ℤ)) (c d : List ℤ) (n : ℕ)
    (h : stepsToEmpty S (S.card + 1) c d = some n) (h2 : 2 ≤ n) :
    vadd c d ∈ S ∧ stepsToEmpty S (S.card + 1) (vadd c d) d = some (n - 1) := by
  have e : stepsToEmpty S (S.card + 1) c d =
      if vadd c d ∈ S then (stepsToEmpty S S.card (vadd c d) d).map (· + 1)
      else some 1 := rfl
  by_cases hc : vadd c d ∈ S
  · rw [e, if_pos hc] at h
    obtain ⟨j, hj, hjk⟩ := Option.map_eq_some'.mp h
    refine ⟨hc, ?_⟩
    rw [stepsToEmpty_mono S _ _ _ _ hj]
    exact congrArg some (by omega)
  · rw [e, if_neg hc] at h
    injection h with h'
    omega

/-- The accumulator loop of `to_nearest_empty` returns the first
direction of least count: the result is the accumulator or a list
element, its count is genuine, bounded by the accumulator's, and minimal
among the list. -/
theorem tneLoop_spec (S : Finset (List ℤ)) (c : List ℤ) :
    ∀ (rest : List (List ℤ)) (acc : List ℤ × ℕ),
      (∀ d ∈ rest, ∃ k, stepsToEmpty S (S.card + 1) c d = some k) →
      stepsToEmpty S (S.card + 1) c acc.1 = some acc.2 →
      ∃ bd n, tneLoop S c rest acc = some (bd, n) ∧
        (bd = acc.1 ∨ bd ∈ rest) ∧
        stepsToEmpty S (S.card + 1) c bd = some n ∧ n ≤ acc.2 ∧
        ∀ d ∈ rest, ∀ j, stepsToEmpty S (S.card + 1) c d = some j → n ≤ j := by
  intro rest
  induction rest with
  | nil =>
    intro acc _ hacc
    exact ⟨acc.1, acc.2, rfl, Or.inl rfl, hacc, le_refl _,
      fun d hd => absurd hd (List.not_mem_nil d)⟩
  | cons d rest ih =>
    intro acc hall hacc
    obtain ⟨m, hm⟩ := hall d (List.mem_cons_self d rest)
    have hrest : ∀ d' ∈ rest, ∃ k, stepsToEmpty S (S.card + 1) c d' = some k :=
      fun d' hd' => hall d' (List.mem_cons_of_mem d hd')
    simp only [tneLoop, hm]
    by_cases hlt : m < acc.2
    · rw [if_pos hlt]
      obtain ⟨bd, n, h1, hmem, h2, h3, h4⟩ := ih (d, m) hrest hm
      refine ⟨bd, n, h1, ?_, h2, by omega, ?_⟩
      · rcases hmem with h | h
        · exact Or.inr (h ▸ List.mem_cons_self d rest)
        · exact Or.inr (List.mem_cons_of_mem d h)
      · intro d' hd' j hj
        rcases List.mem_cons.mp hd' with heq | hmem'
        · subst heq
          rw [hm] at hj
          injection hj with hj'
          omega
        · exact h4 d' hmem' j hj
    · rw [if_neg hlt]
      obtain ⟨bd, n, h1, hmem, h2, h3, h4⟩ := ih acc hrest hacc
      refine ⟨bd, n, h1, ?_, h2, h3, ?_⟩
      · rcases hmem with h | h
        · exact Or.inl h
        · exact Or.inr (List.mem_cons_of_mem d h)
      · intro d' hd' j hj
        rcases List.mem_cons.mp hd' with heq | hmem'
        · subst heq
          rw [hm] at hj
          injection hj with hj'
          omega
        · exact h4 d' hmem' j hj

/-- `to_nearest_empty` on a nonempty direction list whose counts all
exist returns a member direction achieving the least count. -/
theorem toNearestEmpty_spec (S : Finset (List ℤ)) (ds : List (List ℤ))
    (c : List ℤ) (hne : ds ≠ [])
    (hall : ∀ d ∈ ds, ∃ k, stepsToEmpty S (S.card + 1) c d = some k) :
    ∃ bd n, toNearestEmpty S ds c = some (bd, n) ∧ bd ∈ ds ∧
      stepsToEmpty S (S.card + 1) c bd = some n ∧
      ∀ d ∈ ds, ∀ j, stepsToEmpty S (S.card + 1) c d = some j → n ≤ j := by
  cases ds with
  | nil => exact absurd rfl hne
  | cons d rest =>
    obtain ⟨m, hm⟩ := hall d (List.mem_cons_self d rest)
    obtain ⟨bd, n, h1, hmem, h2, h3, h4⟩ := tneLoop_spec S c rest (d, m)
      (fun d' hd' => hall d' (List.mem_cons_of_mem d hd')) hm
    refine ⟨bd, n, ?_, ?_, h2, ?_⟩
    · simp only [toNearestEmpty, hm]
      exact h1
    · rcases hmem with h | h
      · exact h ▸ List.mem_cons_self d rest
      · exact List.mem_cons_of_mem d h
    · intro d' hd' j hj
      rcases List.mem_cons.mp hd' with heq | hmem'
      · subst heq
        rw [hm] at hj
        injection hj with hj'
        omega
      · exact h4 d' hmem' j hj

/-- Main induction for `push_minimum_drag`: if some direction reaches an
empty site within `fuel` steps, the walk completes.  The chosen least
count decreases by exactly one per step, so the fuel never runs out. -/
theorem pushMinDrag_isSome_aux (S : Finset (List ℤ)) (dirs : List (List ℤ))
    (shufs : ℕ → List (List ℤ)) (D : ℕ)
    (hdirs : dirs ≠ []) (hwf : ∀ d ∈ dirs, d.length = D ∧ ∃ x ∈ d, x ≠ 0)
    (hperm : ∀ i, (shufs i).Perm dirs) :
    ∀ (fuel : ℕ) (c : List ℤ), c.length = D →
      (∃ d0 ∈ dirs, ∃ k, stepsToEmpty S (S.card + 1) c d0 = some k ∧ k ≤ fuel) →
      ∃ vs, Tissue.push_minimum_drag S shufs fuel c = some vs := by
  intro fuel
  induction fuel with
  | zero =>
    rintro c _ ⟨d0, _, k, hk, hk0⟩
    have := stepsToEmpty_pos S _ c d0 k hk
    omega
  | succ fuel ih =>
    rintro c hc ⟨d0, hd0, k, hk, hkle⟩
    have hperm' := hperm fuel
    have hne : shufs fuel ≠ [] := by
      intro h0
      apply hdirs
      rw [h0] at hperm'
      exact hperm'.symm.eq_nil
    have hallsteps : ∀ d ∈ shufs fuel, ∃ k',
        stepsToEmpty S (S.card + 1) c d = some k' := by
      intro d hd
      obtain ⟨hlen, hnz⟩ := hwf d (hperm'.mem_iff.mp hd)
      exact stepsToEmpty_isSome S c d (by rw [hc, hlen]) hnz
    obtain ⟨bd, n, htne, hbdmem, hbd, hmin⟩ :=
      toNearestEmpty_spec S (shufs fuel) c hne hallsteps
    have hbd_dirs : bd ∈ dirs := hperm'.mem_iff.mp hbdmem
    have hd0' : d0 ∈ shufs fuel := hperm'.mem_iff.mpr hd0
    have hnk : n ≤ k := hmin d0 hd0' k hk
    simp only [Tissue.push_minimum_drag, htne]
    by_cases hcin : vadd c bd ∈ S
    · rw [if_pos hcin]
      have hn2 : 2 ≤ n := by
        rcases Nat.lt_or_ge n 2 with hl2 | hl2
        · have h1 := stepsToEmpty_pos S _ c bd n hbd
          have hn1 : n = 1 := by omega
          rw [hn1] at hbd
          exact absurd hcin (stepsToEmpty_one S c bd hbd)
        · exact hl2
      obtain ⟨_, hdec⟩ := stepsToEmpty_decrement S c bd n hbd hn2
      have hlen' : (vadd c bd).length = D := by
        rw [vadd_length, hc, (hwf bd hbd_dirs).1]
        exact Nat.min_self D
      obtain ⟨vs, hvs⟩ := ih (vadd c bd) hlen'
        ⟨bd, hbd_dirs, n - 1, hdec, by omega⟩
      exact ⟨_, by rw [hvs]; rfl⟩
    · rw [if_neg hcin]
      exact ⟨_, rfl⟩

/-- **C10.** For every finite occupancy set and every direction with a
nonzero component, `push` terminates: fuel `|S| + 1` always suffices for
the chain of `swap_existing` displacements to reach an empty site (the
`|S| + 1` ray points probed are pairwise distinct, so one is free).
Likewise `push_minimum_drag` terminates with fuel `|S| + 2` for any
per-step shuffles of a geometry's direction list: `to_nearest_empty`
always returns a direction whose `steps_to_empty` count exists (is
finite), and that count strictly decreases by one per step toward the
insertion. -/
theorem push_termination_spec :
    (∀ (S : Finset (List ℤ)) (c d : List ℤ),
      c.length = d.length → (∃ x ∈ d, x ≠ 0) →
      ∃ vs, Tissue.push S (S.card + 1) c d = some vs) ∧
    (∀ (S : Finset (List ℤ)) (dirs : List (List ℤ))
        (shufs : ℕ → List (List ℤ)) (c : List ℤ),
      dirs ≠ [] →
      (∀ d ∈ dirs, d.length = c.length ∧ ∃ x ∈ d, x ≠ 0) →
      (∀ i, (shufs i).Perm dirs) →
      ∃ vs, Tissue.push_minimum_drag S shufs (S.card + 2) c = some vs) := by
  constructor
  · intro S c d hl hd
    exact push_isSome_of_steps S _ c d (stepsToEmpty_isSome S c d hl hd)
  · intro S dirs shufs c hdirs hwf hperm
    obtain ⟨d0, hd0⟩ : ∃ d0, d0 ∈ dirs := by
      cases dirs with
      | nil => exact absurd rfl hdirs
      | cons d rest => exact ⟨d, List.mem_cons_self d rest⟩
    obtain ⟨hlen, hnz⟩ := hwf d0 hd0
    obtain ⟨k, hk⟩ := stepsToEmpty_isSome S c d0 hlen.symm hnz
    have hk_le := stepsToEmpty_le_fuel S _ c d0 k hk
    exact pushMinDrag_isSome_aux S dirs shufs c.length hdirs hwf hperm
      (S.card + 2) c rfl ⟨d0, hd0, k, hk, by omega⟩

/-- Witness for `push_termination_spec`: pushing from the origin through
the single occupied site `(1,0)`, straight and by minimum drag with the
von-Neumann 2D directions. -/
theorem push_termination_spec_witness :
    (∃ vs, Tissue.push ({[1, 0]} : Finset (List ℤ))
      (({[1, 0]} : Finset (List ℤ)).card + 1) [0, 0] [1, 0] = some vs) ∧
    (∃ vs, Tissue.push_minimum_drag ({[1, 0]} : Finset (List ℤ))
      (fun _ => Neumann.directions 2)
      (({[1, 0]} : Finset (List ℤ)).card + 2) [0, 0] = some vs) :=
  ⟨push_termination_spec.1 _ [0, 0] [1, 0] rfl (by decide),
   push_termination_spec.2 _ (Neumann.directions 2) _ [0, 0] (by decide)
     (by decide) (fun _ => List.Perm.refl _)⟩

/-- The head (or default 0) of a nonnegative draw stream is nonnegative. -/
theorem headD_nonneg (rng : List ℚ) (h : ∀ x ∈ rng, 0 ≤ x) : 0 ≤ rng.headD 0 := by
  cases rng with
  | nil => exact le_refl 0
  | cons x xs => exact h x (List.mem_cons_self x xs)

/-- The clamped gamma scale, read back as a rational, is nonnegative. -/
theorem gammaTheta_untop_nonneg (β pv k : ℚ) (e : WithTop ℚ) :
    0 ≤ (gammaTheta β pv k e).untop' 0 := by
  unfold gammaTheta
  split_ifs
  · simp
  · simp
  · simp only [WithTop.untop'_coe]
    exact le_max_right _ _

/-- A sampled birth waiting time is nonnegative. -/
theorem sampleBirth_nonneg (ω : ℕ) (β pv k : ℚ) (e : WithTop ℚ) (rng : List ℚ)
    (h : ∀ x ∈ rng, 0 ≤ x) : 0 ≤ (sampleBirth ω β pv k e rng).1 := by
  unfold sampleBirth
  by_cases h1 : 0 < ω
  · rw [if_pos h1]
    show 0 ≤ (if gammaTheta β pv k e = ⊤ then (⊤ : WithTop ℚ)
      else ↑((gammaTheta β pv k e).untop' 0 * rng.headD 0))
    split_ifs with h2
    · exact le_top
    · rw [← WithTop.coe_zero, WithTop.coe_le_coe]
      exact mul_nonneg (gammaTheta_untop_nonneg β pv k e) (headD_nonneg rng h)
  · rw [if_neg h1]
    exact le_top

/-- A sampled exponential waiting time is nonnegative. -/
theorem sampleExp_nonneg (rate : ℚ) (rng : List ℚ)
    (h : ∀ x ∈ rng, 0 ≤ x) : 0 ≤ (sampleExp rate rng).1 := by
  unfold sampleExp
  split_ifs with h1
  · show (0 : WithTop ℚ) ≤ ↑(rng.headD 0 / rate)
    rw [← WithTop.coe_zero, WithTop.coe_le_coe]
    exact div_nonneg (headD_nonneg rng h) (le_of_lt h1)
  · exact le_top

/-- The remaining stream of `sampleBirth` is a suffix of the input. -/
theorem sampleBirth_stream (ω : ℕ) (β pv k : ℚ) (e : WithTop ℚ) (rng : List ℚ) :
    ∀ x ∈ (sampleBirth ω β pv k e rng).2, x ∈ rng := by
  unfold sampleBirth
  by_cases h1 : 0 < ω
  · rw [if_pos h1]
    exact fun x hx => List.mem_of_mem_tail hx
  · rw [if_neg h1]
    exact fun x hx => hx

/-- The remaining stream of `sampleExp` is a suffix of the input. -/
theorem sampleExp_stream (rate : ℚ) (rng : List ℚ) :
    ∀ x ∈ (sampleExp rate rng).2, x ∈ rng := by
  unfold sampleExp
  split_ifs
  · exact fun x hx => List.mem_of_mem_tail hx
  · exact fun x hx => hx

/-- `delta_time` returns a nonnegative waiting time (the gamma scale is
clamped at 0 and the unit draws are nonnegative), so `queue_push` can
never schedule into the past. -/
theorem delta_time_nonneg (k pv : ℚ) (rng : List ℚ) (c : Cell)
    (h : ∀ x ∈ rng, 0 ≤ x) : 0 ≤ (c.delta_time k pv rng).1 := by
  have hb := sampleBirth_nonneg c.proliferation_capacity c.rates.birth_rate
    pv k c.elapsed rng h
  have h1 : ∀ x ∈ (sampleBirth c.proliferation_capacity c.rates.birth_rate
      pv k c.elapsed rng).2, 0 ≤ x :=
    fun x hx => h x (sampleBirth_stream _ _ _ _ _ rng x hx)
  have hd := sampleExp_nonneg c.rates.death_rate _ h1
  have h2 : ∀ x ∈ (sampleExp c.rates.death_rate
      (sampleBirth c.proliferation_capacity c.rates.birth_rate
        pv k c.elapsed rng).2).2, 0 ≤ x :=
    fun x hx => h1 x (sampleExp_stream _ _ x hx)
  have hm := sampleExp_nonneg c.rates.migra_rate _ h2
  unfold Cell.delta_time
  dsimp only
  split_ifs
  · exact hb
  · exact hb
  · exact hd
  · exact hm

/-- Membership in a queue after `queueInsert`. -/
theorem queueInsert_mem (k : WithTop ℚ) (c : Cell) :
    ∀ (q : List (WithTop ℚ × Cell)) (p : WithTop ℚ × Cell),
      p ∈ queueInsert k c q → p = (k, c) ∨ p ∈ q := by
  intro q
  induction q with
  | nil =>
    intro p hp
    simp only [queueInsert, List.mem_singleton] at hp
    exact Or.inl hp
  | cons hd rest ih =>
    obtain ⟨k', c'⟩ := hd
    intro p hp
    simp only [queueInsert] at hp
    by_cases hle : k' ≤ k
    · rw [if_pos hle] at hp
      rcases List.mem_cons.mp hp with h | h
      · exact Or.inr (h ▸ List.mem_cons_self _ _)
      · rcases ih p h with h' | h'
        · exact Or.inl h'
        · exact Or.inr (List.mem_cons_of_mem _ h')
    · rw [if_neg hle] at hp
      rcases List.mem_cons.mp hp with h | h
      · exact Or.inl h
      · exact Or.inr h

/-- `queueInsert` keeps the queue ordered by key. -/
theorem queueInsert_sorted (k : WithTop ℚ) (c : Cell) :
    ∀ q, queueSorted q → queueSorted (queueInsert k c q) := by
  intro q
  induction q with
  | nil =>
    intro _
    simp [queueInsert, queueSorted]
  | cons hd rest ih =>
    obtain ⟨k', c'⟩ := hd
    intro hs
    have hcons := List.pairwise_cons.mp hs
    simp only [queueInsert]
    by_cases hle : k' ≤ k
    · rw [if_pos hle]
      refine List.pairwise_cons.mpr ⟨?_, ih hcons.2⟩
      intro p hp
      rcases queueInsert_mem k c rest p hp with h | h
      · rw [h]; exact hle
      · exact hcons.1 p h
    · rw [if_neg hle]
      refine List.pairwise_cons.mpr ⟨?_, hs⟩
      intro p hp
      rcases List.mem_cons.mp hp with h | h
      · rw [h]; exact le_of_not_le hle
      · exact le_trans (le_of_not_le hle) (hcons.1 p h)

/-- `queueInsert` with a key at or after `t` keeps all keys ≥ `t`. -/
theorem queueInsert_keysGE (t k : WithTop ℚ) (c : Cell)
    (q : List (WithTop ℚ × Cell))
    (hq : queueKeysGE t q) (hk : t ≤ k) : queueKeysGE t (queueInsert k c q) := by
  intro p hp
  rcases queueInsert_mem k c q p hp with h | h
  · rw [h]; exact hk
  · exact hq p h

/-- `queue_push` at the current time keeps all keys ≥ that time: the new
key is `time + dt` with `dt ≥ 0`. -/
theorem queue_push_keysGE (g : ℚ) (k : WithTop ℚ) (rng : List ℚ) (c : Cell)
    (q : List (WithTop ℚ × Cell)) (hq : queueKeysGE k q)
    (hr : ∀ x ∈ rng, 0 ≤ x) :
    queueKeysGE k (Tissue.queue_push g k rng c q) := by
  unfold Tissue.queue_push
  exact queueInsert_keysGE k _ _ q hq
    (le_add_of_nonneg_right (delta_time_nonneg g 1 rng c hr))

/-- `queue_push` preserves the key ordering. -/
theorem queue_push_sorted (g : ℚ) (k : WithTop ℚ) (rng : List ℚ) (c : Cell)
    (q : List (WithTop ℚ × Cell)) (hs : queueSorted q) :
    queueSorted (Tissue.queue_push g k rng c q) :=
  queueInsert_sorted _ _ q hs

/-- The aliasing fixup changes only coordinates, never keys. -/
theorem applyMoves_keysGE (t : WithTop ℚ) (mv : List (List ℤ × List ℤ))
    (q : List (WithTop ℚ × Cell)) (h : queueKeysGE t q) :
    queueKeysGE t (applyMoves mv q) := by
  intro p hp
  obtain ⟨p', hp', heq⟩ := List.mem_map.mp hp
  rw [← heq]
  exact h p' hp'

/-- The aliasing fixup preserves the key ordering. -/
theorem applyMoves_sorted (mv : List (List ℤ × List ℤ))
    (q : List (WithTop ℚ × Cell)) (h : queueSorted q) :
    queueSorted (applyMoves mv q) := by
  unfold applyMoves queueSorted
  rw [List.pairwise_map]
  exact h

/-- `recordEarly` never touches the queue. -/
theorem recordEarly_queue (k : WithTop ℚ) (s : GrowState) :
    (recordEarly k s).queue = s.queue := by
  unfold recordEarly
  split_ifs <;> rfl

/-- `recordEarly` never touches the clock. -/
theorem recordEarly_time (k : WithTop ℚ) (s : GrowState) :
    (recordEarly k s).time = s.time := by
  unfold recordEarly
  split_ifs <;> rfl

/-- The event dispatch preserves the scheduler invariant: starting from
a state at time `k` whose queue keys are all ≥ `k` and sorted, the
resulting state is still at time `k` with all keys ≥ `k` and sorted. -/
theorem growDispatch_inv (P : GrowParams) (o : GrowOracle) (k : WithTop ℚ)
    (mother : Cell) (s2 : GrowState)
    (ht : s2.time = k) (hg : queueKeysGE k s2.queue) (hs : queueSorted s2.queue)
    (hr1 : ∀ x ∈ o.rngDT1, 0 ≤ x) (hr2 : ∀ x ∈ o.rngDT2, 0 ≤ x) :
    (growDispatch P o k mother s2).1.time = k ∧
    queueKeysGE k (growDispatch P o k mother s2).1.queue ∧
    queueSorted (growDispatch P o k mother s2).1.queue := by
  unfold growDispatch
  cases hev : mother.next_event with
  | birth =>
    by_cases hins : (insertFn P o s2.occupied mother).1 = true
    · rw [if_pos hins]
      refine ⟨by rw [recordEarly_time]; exact ht, ?_, ?_⟩
      · rw [recordEarly_queue]
        exact queue_push_keysGE _ _ _ _ _
          (queue_push_keysGE _ _ _ _ _ (applyMoves_keysGE _ _ _ hg) hr1) hr2
      · rw [recordEarly_queue]
        exact queue_push_sorted _ _ _ _ _
          (queue_push_sorted _ _ _ _ _ (applyMoves_sorted _ _ hs))
    · rw [if_neg hins]
      exact ⟨ht, queue_push_keysGE _ _ _ _ _ hg hr1,
        queue_push_sorted _ _ _ _ _ hs⟩
  | death =>
    by_cases hext : ({ s2 with
        history := s2.history ++ [{ mother with time_of_death := k }]
        occupied := s2.occupied.erase mother.coord } : GrowState).occupied = ∅
    · rw [if_pos hext]
      exact ⟨ht, hg, hs⟩
    · rw [if_neg hext]
      refine ⟨by rw [recordEarly_time]; exact ht, ?_, ?_⟩
      · rw [recordEarly_queue]; exact hg
      · rw [recordEarly_queue]; exact hs
  | migration =>
    refine ⟨by rw [recordEarly_time]; exact ht, ?_, ?_⟩
    · rw [recordEarly_queue]
      exact queue_push_keysGE _ _ _ _ _ (applyMoves_keysGE _ _ _ hg) hr1
    · rw [recordEarly_queue]
      exact queue_push_sorted _ _ _ _ _ (applyMoves_sorted _ _ hs)

/-- **C4.** Across one iteration of `grow`, the simulation clock is
non-decreasing (it advances to the popped minimal key, which the
invariant places at or after the current time), and every entry of the
resulting queue has key ≥ the new simulation time: the popped entry is
the minimum of the sorted multimap, and every `queue_push` inserts at
`time_ + delta_time ≥ time_` since the sampled waiting time is
nonnegative.  The key ordering of the multimap is also preserved, and
the invariant holds initially: the constructor pushes every seed cell at
`time_ = 0` with keys `0 + dt ≥ 0`. -/
theorem grow_queue_time_invariant (P : GrowParams) (o : GrowOracle)
    (s : GrowState)
    (hsorted : queueSorted s.queue) (hinv : queueKeysGE s.time s.queue)
    (hr1 : ∀ x ∈ o.rngDT1, 0 ≤ x) (hr2 : ∀ x ∈ o.rngDT2, 0 ≤ x) :
    s.time ≤ (growIter P o s).1.time ∧
    queueKeysGE (growIter P o s).1.time (growIter P o s).1.queue ∧
    queueSorted (growIter P o s).1.queue := by
  rcases hq : s.queue with _ | ⟨⟨k, mother⟩, rest⟩
  · simp only [growIter, hq]
    exact ⟨le_refl _, fun p hp => absurd hp (List.not_mem_nil p), List.Pairwise.nil⟩
  · have hk : s.time ≤ k := hinv (k, mother) (by rw [hq]; exact List.mem_cons_self _ _)
    have hsorted' : queueSorted ((k, mother) :: rest) := hq ▸ hsorted
    have hrest_ge : ∀ p ∈ rest, k ≤ p.1 := (List.pairwise_cons.mp hsorted').1
    have hrest_sorted : queueSorted rest := (List.pairwise_cons.mp hsorted').2
    simp only [growIter, hq]
    by_cases hexit : k > P.maxTime ∨ P.maxSize ≤ s.occupied.card
    · rw [if_pos hexit]
      refine ⟨hk, ?_, ?_⟩
      · intro p hp
        have hp' : p ∈ (k, mother) :: rest := hp
        rcases List.mem_cons.mp hp' with h | h
        · rw [h]
        · exact hrest_ge p h
      · exact hsorted'
    · rw [if_neg hexit]
      by_cases hsnap : k > (s.i_snapshot : WithTop ℚ) * P.snapshotInterval
      · rw [if_pos hsnap]
        have hd := growDispatch_inv P o k mother
          { s with time := k, queue := rest,
                   snapshots := s.snapshots ++ [k],
                   i_snapshot := s.i_snapshot + 1 }
          rfl hrest_ge hrest_sorted hr1 hr2
        refine ⟨le_trans hk hd.1.ge, ?_, hd.2.2⟩
        rw [hd.1]
        exact hd.2.1
      · rw [if_neg hsnap]
        have hd := growDispatch_inv P o k mother
          { s with time := k, queue := rest }
          rfl hrest_ge hrest_sorted hr1 hr2
        refine ⟨le_trans hk hd.1.ge, ?_, hd.2.2⟩
        rw [hd.1]
        exact hd.2.1

/-- **C3, counterexample.**  In the `failDemo` state the insert of the
daughter fails (step rule, no empty neighbor), yet the iteration's
event time `1` has crossed the periodic snapshot boundary
`i_snapshot · interval = 1/2`, so `snapshots_append` runs *before* the
dispatch and the snapshot stream does change in that loop iteration —
the claim's "snapshot stream unchanged" clause is too strong. -/
theorem grow_insert_failure_snapshot_counterexample :
    failDemoMother.next_event = Event.birth ∧
    (insertFn failDemoParams failDemoOracle failDemoState.occupied
      failDemoMother).1 = false ∧
    failDemoState.snapshots = [] ∧
    (growIter failDemoParams failDemoOracle failDemoState).1.snapshots =
      [((1 : ℚ) : WithTop ℚ)] := by
  with_unfolding_all decide

/-- **C3, amended.**  Whenever the configured insert of a daughter fails
in a non-exiting iteration (under the step or linear rules — the only
ones that can refuse), the dispatch's only effect is that the mother is
re-scheduled with one fresh queue entry (`queue_push` onto the remaining
queue): the occupancy set, the history, the id counter and the driver
stream are unchanged, and no ids or ancestor links are assigned (those
assignments occur only on the success path, which is not taken).  The
snapshot stream is unchanged *unless* the event time crossed the
periodic snapshot boundary, in which case exactly that periodic
snapshot — appended before the dispatch — is added; the early-growth
recording at the loop bottom is skipped by the `continue`. -/
theorem grow_insert_failure_effects (P : GrowParams) (o : GrowOracle)
    (s : GrowState) (k : WithTop ℚ) (mother : Cell)
    (rest : List (WithTop ℚ × Cell))
    (hq : s.queue = (k, mother) :: rest)
    (hexit : ¬(k > P.maxTime ∨ P.maxSize ≤ s.occupied.card))
    (hev : mother.next_event = Event.birth)
    (hrule : P.rule = Rule.stepRandom ∨ P.rule = Rule.stepMindrag ∨
      P.rule = Rule.linearRandom ∨ P.rule = Rule.linearMindrag)
    (hfail : (insertFn P o s.occupied mother).1 = false) :
    (growIter P o s).2 = false ∧
    (growIter P o s).1.occupied = s.occupied ∧
    (growIter P o s).1.history = s.history ∧
    (growIter P o s).1.id_tail = s.id_tail ∧
    (growIter P o s).1.drivers = s.drivers ∧
    (growIter P o s).1.queue =
      Tissue.queue_push P.gammaShape k o.rngDT1 mother rest ∧
    (growIter P o s).1.snapshots =
      (if k > (s.i_snapshot : WithTop ℚ) * P.snapshotInterval
       then s.snapshots ++ [k] else s.snapshots) := by
  simp only [growIter, hq]
  rw [if_neg hexit]
  by_cases hsnap : k > (s.i_snapshot : WithTop ℚ) * P.snapshotInterval
  · rw [if_pos hsnap]
    simp only [growDispatch, hev]
    rw [if_neg (by simp [hfail])]
    refine ⟨rfl, rfl, rfl, rfl, rfl, rfl, ?_⟩
    rw [if_pos hsnap]
  · rw [if_neg hsnap]
    simp only [growDispatch, hev]
    rw [if_neg (by simp [hfail])]
    refine ⟨rfl, rfl, rfl, rfl, rfl, rfl, ?_⟩
    rw [if_neg hsnap]

/-- Witness for `grow_insert_failure_effects` at the `failDemo`
instance. -/
theorem grow_insert_failure_effects_witness :
    (growIter failDemoParams failDemoOracle failDemoState).2 = false ∧
    (growIter failDemoParams failDemoOracle failDemoState).1.occupied =
      failDemoState.occupied ∧
    (growIter failDemoParams failDemoOracle failDemoState).1.drivers =
      failDemoState.drivers := by
  have h := grow_insert_failure_effects failDemoParams failDemoOracle
    failDemoState ((1 : ℚ) : WithTop ℚ) failDemoMother [] rfl
    (by with_unfolding_all decide) rfl (Or.inl rfl)
    (by with_unfolding_all decide)
  exact ⟨h.1, h.2.1, h.2.2.2.2.1⟩

/-- Witness for `grow_queue_time_invariant` at the `failDemo` instance
(its queue is the single entry at time `1 ≥ 0`). -/
theorem grow_queue_time_invariant_witness :
    failDemoState.time ≤
      (growIter failDemoParams failDemoOracle failDemoState).1.time ∧
    queueKeysGE
      (growIter failDemoParams failDemoOracle failDemoState).1.time
      (growIter failDemoParams failDemoOracle failDemoState).1.queue ∧
    queueSorted (growIter failDemoParams failDemoOracle failDemoState).1.queue :=
  grow_queue_time_invariant failDemoParams failDemoOracle failDemoState
    (by unfold queueSorted; with_unfolding_all decide)
    (by unfold queueKeysGE; with_unfolding_all decide)
    (fun x hx => absurd hx (List.not_mem_nil x))
    (fun x hx => absurd hx (List.not_mem_nil x))
